import Mathlib

/-!
Verification of the document-verification pipeline of the
Industrial-Attachment-Management-System backend.

The Python sources are embedded shallowly: Python `str` becomes `List Char`,
Python floats that only ever hold exact decimal fractions become `ℚ`,
Python regular expressions become an explicit backtracking matcher over a
regex AST, and library-bound effects (PDF parsing, OCR engines) become
explicit parameters describing the library's answer.

Unicode NFD decomposition followed by combining-mark stripping
(`unicodedata.normalize('NFD', s)` + `Mn` filter) maps strings to strings
and is the identity on the ASCII strings all subsequent steps produce;
it is modelled as the identity, and every universal theorem quantifies over
the full string argument, hence over every possible post-NFD string.
-/

set_option maxRecDepth 100000

namespace IAMS

/-- Python `str` modelled as a list of characters. -/
abbrev Str := List Char

/-! ## Character predicates (ASCII fragment used by the sources) -/

/-- Python regex `\s` / `str.split()` whitespace (ASCII fragment). -/
def isPySpace (c : Char) : Bool :=
  c == ' ' || c == '\t' || c == '\n' || c == '\r' || c == '\x0b' || c == '\x0c'

def isAsciiUpper (c : Char) : Bool := 65 ≤ c.toNat && c.toNat ≤ 90

def isAsciiLower (c : Char) : Bool := 97 ≤ c.toNat && c.toNat ≤ 122

def isAsciiAlpha (c : Char) : Bool := isAsciiUpper c || isAsciiLower c

def isAsciiDigit (c : Char) : Bool := 48 ≤ c.toNat && c.toNat ≤ 57

/-- Python regex `\w` (ASCII fragment). -/
def isWordChar (c : Char) : Bool := isAsciiAlpha c || isAsciiDigit c || c == '_'

/-- `str.lower` per character (ASCII fragment). -/
def toLowerChar (c : Char) : Char :=
  if isAsciiUpper c then Char.ofNat (c.toNat + 32) else c

/-- `str.upper` per character (ASCII fragment; real `str.upper` also maps a few
non-ASCII letters, none of which ever yields a digit, so the theorems about
digits are unaffected). -/
def toUpperChar (c : Char) : Char :=
  if isAsciiLower c then Char.ofNat (c.toNat - 32) else c

def pyLower (s : Str) : Str := s.map toLowerChar

def pyUpper (s : Str) : Str := s.map toUpperChar

/-! ## String utilities mirroring Python's `str` methods and `re.sub` -/

/-- Is `pat` a prefix of the second argument? -/
def isPrefixL : Str → Str → Bool
  | [], _ => true
  | _ :: _, [] => false
  | a :: as, b :: bs => a == b && isPrefixL as bs

/-- Python `pat in s` (substring containment). -/
def isSubstring (pat : Str) : Str → Bool
  | [] => isPrefixL pat []
  | c :: rest => isPrefixL pat (c :: rest) || isSubstring pat rest

/-- Fuel-based worker for `pyReplace`; every step consumes at least one
character, so fuel `s.length` never runs out (recursions stay structural so
that the kernel can evaluate concrete instances). -/
def pyReplaceAux (pat rep : Str) : Nat → Str → Str
  | 0, s => s
  | fuel + 1, s =>
    match s with
    | [] => []
    | c :: rest =>
      if pat.isEmpty then c :: rest
      else if isPrefixL pat (c :: rest) then
        rep ++ pyReplaceAux pat rep fuel (rest.drop (pat.length - 1))
      else
        c :: pyReplaceAux pat rep fuel rest

/-- Python `s.replace(pat, rep)`: replace all non-overlapping occurrences,
left to right.  (Never called with an empty `pat` in the sources; for an
empty `pat` this model is the identity.) -/
def pyReplace (pat rep s : Str) : Str := pyReplaceAux pat rep s.length s

theorem dropWhile_len_le {α : Type} (p : α → Bool) :
    ∀ s : List α, (s.dropWhile p).length ≤ s.length := by
  intro s
  induction s with
  | nil => simp [List.dropWhile]
  | cons c rest ih =>
    simp only [List.dropWhile, List.length_cons]
    split
    · omega
    · simp

/-- Fuel-based worker for `collapseWs` (fuel `s.length` suffices). -/
def collapseWsAux : Nat → Str → Str
  | 0, s => s
  | fuel + 1, s =>
    match s with
    | [] => []
    | c :: rest =>
      if isPySpace c then ' ' :: collapseWsAux fuel (rest.dropWhile isPySpace)
      else c :: collapseWsAux fuel rest

/-- Python `re.sub(r'\s+', ' ', s)`: collapse every whitespace run to one space. -/
def collapseWs (s : Str) : Str := collapseWsAux s.length s

/-- Python `s.strip()`. -/
def pyStrip (s : Str) : Str :=
  ((s.dropWhile isPySpace).reverse.dropWhile isPySpace).reverse

/-- Fuel-based worker for `splitWs` (fuel `s.length` suffices). -/
def splitWsAux : Nat → Str → List Str
  | 0, _ => []
  | fuel + 1, s =>
    match s with
    | [] => []
    | c :: rest =>
      if isPySpace c then splitWsAux fuel rest
      else (c :: rest.takeWhile (fun d => !isPySpace d)) ::
        splitWsAux fuel (rest.dropWhile (fun d => !isPySpace d))

/-- Python `s.split()` (no argument): split on whitespace runs, dropping
empty pieces. -/
def splitWs (s : Str) : List Str := splitWsAux s.length s

/-- Python `s.split(sep)` for a one-character separator. -/
def splitOnChar (sep : Char) : Str → List Str
  | [] => [[]]
  | c :: rest =>
    if c == sep then [] :: splitOnChar sep rest
    else
      match splitOnChar sep rest with
      | [] => [[c]]
      | w :: ws => (c :: w) :: ws

/-- Python `sep.join(pieces)`. -/
def joinWith (sep : Str) : List Str → Str
  | [] => []
  | [w] => w
  | w :: ws => w ++ sep ++ joinWith sep ws

/-- Python string `≤` (lexicographic by code point). -/
def lexLe : Str → Str → Bool
  | [], _ => true
  | _ :: _, [] => false
  | a :: as, b :: bs => a.toNat < b.toNat || (a == b && lexLe as bs)

def insertSorted (w : Str) : List Str → List Str
  | [] => [w]
  | x :: xs => if lexLe w x then w :: x :: xs else x :: insertSorted w xs

/-- Python `sorted` on a list of strings (stable; insertion sort). -/
def sortStrs : List Str → List Str
  | [] => []
  | w :: ws => insertSorted w (sortStrs ws)

/-- Python `int(s)` for a non-empty decimal-digit string. -/
def pyInt (s : Str) : Nat := s.foldl (fun n c => 10 * n + (c.toNat - 48)) 0

/-! ## `TextCleaner.clean_text`
(`core/services/transcript_data_extractor.py`, lines 109-134.)
The replacement dict is applied in insertion order:
`rn→m, cl→d, 0→O, 1→I, vv→w, ii→n`, then whitespace is collapsed and the
result stripped.  The leading NFD/Mn step is modelled as the identity (see
the header comment). -/

def clean_text (text : Str) : Str :=
  if text.isEmpty then []
  else
    pyStrip (collapseWs
      (pyReplace ['i', 'i'] ['n']
        (pyReplace ['v', 'v'] ['w']
          (pyReplace ['1'] ['I']
            (pyReplace ['0'] ['O']
              (pyReplace ['c', 'l'] ['d']
                (pyReplace ['r', 'n'] ['m'] text)))))))

/-! ## `NameMatcher.normalize_name`
(`transcript_data_extractor.py`, lines 43-60.)
Remove non-alphabetic/non-space characters, collapse whitespace, strip,
lowercase, split, keep parts longer than one character, sort, re-join. -/

/-- The cleaned, lowercased, whitespace-split parts of length `> 1`
(the list `parts` of the source). -/
def nameParts (name : Str) : List Str :=
  (splitWs (pyLower (pyStrip (collapseWs
    (name.filter (fun c => isAsciiAlpha c || isPySpace c)))))).filter
    (fun part => 1 < part.length)

def normalize_name (name : Str) : Str :=
  if name.isEmpty then []
  else joinWith [' '] (sortStrs (nameParts name))

/-! ## `difflib.SequenceMatcher` (CPython standard library)
`NameMatcher.calculate_similarity` calls
`SequenceMatcher(None, norm1, norm2).ratio()`.  `isjunk` is `None` and the
autojunk heuristic only applies to second arguments of length ≥ 200 — every
similarity the theorems below evaluate uses far shorter strings — so junk
sets are empty and the junk-extension phase of `find_longest_match` is a
no-op; only the equal-character extension phase is modelled. -/

/-- Character of `s` at index `i` (all generated indices are in range). -/
def strGet (s : Str) (i : Nat) : Char := s.getD i ' '

/-- `b2j`: ascending list of the positions of `c` in `b`. -/
def b2j (b : Str) (c : Char) : List Nat :=
  b.enum.filterMap (fun p => if p.2 == c then some p.1 else none)

/-- Lookup in the `j2len` association list, defaulting to 0. -/
def assocD (l : List (Nat × Nat)) (k : Nat) : Nat :=
  match l.find? (fun p => p.1 == k) with
  | some p => p.2
  | none => 0

/-- Inner loop of `find_longest_match`: one row `i`, walking the positions
`j` of `a[i]` inside `b[blo:bhi]`, building the new `j2len` row and updating
the best block `(besti, bestj, bestsize)`. -/
def flmRow (i : Nat) (j2len : List (Nat × Nat)) :
    List Nat → List (Nat × Nat) × (Nat × Nat × Nat) →
    List (Nat × Nat) × (Nat × Nat × Nat)
  | [], st => st
  | j :: js, (newj2len, best) =>
    let k := (if j = 0 then 0 else assocD j2len (j - 1)) + 1
    let best' := if best.2.2 < k then (i + 1 - k, j + 1 - k, k) else best
    flmRow i j2len js ((j, k) :: newj2len, best')

/-- Outer loop of `find_longest_match` over the rows `i ∈ [alo, ahi)`. -/
def flmRows (a b : Str) (blo bhi : Nat) :
    List Nat → List (Nat × Nat) → (Nat × Nat × Nat) → Nat × Nat × Nat
  | [], _, best => best
  | i :: is, j2len, best =>
    let js := (b2j b (strGet a i)).filter (fun j => blo ≤ j && j < bhi)
    let st := flmRow i j2len js ([], best)
    flmRows a b blo bhi is st.1 st.2

/-- Left extension of the best block over equal characters
(`while besti > alo and bestj > blo and a[besti-1] == b[bestj-1]`). -/
def extendLeft (a b : Str) (alo blo : Nat) :
    Nat → Nat × Nat × Nat → Nat × Nat × Nat
  | 0, st => st
  | fuel + 1, (bi, bj, bs) =>
    if alo < bi && blo < bj && (strGet a (bi - 1) == strGet b (bj - 1)) then
      extendLeft a b alo blo fuel (bi - 1, bj - 1, bs + 1)
    else (bi, bj, bs)

/-- Right extension of the best block over equal characters. -/
def extendRight (a b : Str) (ahi bhi : Nat) :
    Nat → Nat × Nat × Nat → Nat × Nat × Nat
  | 0, st => st
  | fuel + 1, (bi, bj, bs) =>
    if bi + bs < ahi && bj + bs < bhi &&
        (strGet a (bi + bs) == strGet b (bj + bs)) then
      extendRight a b ahi bhi fuel (bi, bj, bs + 1)
    else (bi, bj, bs)

/-- `SequenceMatcher.find_longest_match` on `a[alo:ahi]` vs `b[blo:bhi]`
with empty junk sets. -/
def findLongestMatch (a b : Str) (alo ahi blo bhi : Nat) : Nat × Nat × Nat :=
  let base := flmRows a b blo bhi (List.range' alo (ahi - alo)) [] (alo, blo, 0)
  extendRight a b ahi bhi bhi (extendLeft a b alo blo base.1 base)

/-- Total size of all matching blocks (`sum(size for _, _, size in
get_matching_blocks())`): recursive split at the longest match, exactly the
recursion `get_matching_blocks` performs; `ratio()` only consumes this sum. -/
def matchTotal (a b : Str) : Nat → Nat × Nat × Nat × Nat → Nat
  | 0, _ => 0
  | fuel + 1, (alo, ahi, blo, bhi) =>
    let m := findLongestMatch a b alo ahi blo bhi
    if m.2.2 = 0 then 0
    else
      matchTotal a b fuel (alo, m.1, blo, m.2.1) + m.2.2 +
        matchTotal a b fuel (m.1 + m.2.2, ahi, m.2.1 + m.2.2, bhi)

/-- `SequenceMatcher(None, a, b).ratio()` as an exact rational
(`2.0 * matches / (len(a) + len(b))`, or `1.0` for two empty strings).
Quotients are written with `mkRat` so that the kernel can evaluate them. -/
def seqRatioQ (a b : Str) : ℚ :=
  if a.length + b.length = 0 then 1
  else
    mkRat (2 * matchTotal a b (a.length + b.length + 1) (0, a.length, 0, b.length))
      (a.length + b.length)

/-! ## `NameMatcher.calculate_similarity` / `match_names`
(`transcript_data_extractor.py`, lines 62-104.)  Python `set` operations on
the split name parts are modelled on lists: subset = every element contained
in the other list, set cardinalities via `eraseDups` (first occurrences). -/

/-- `set(p).issubset(set(q))`. -/
def subsetStrs (p q : List Str) : Bool := p.all (fun w => q.contains w)

def calculate_similarity (name1 name2 : Str) : ℚ :=
  if name1.isEmpty || name2.isEmpty then 0
  else
    let norm1 := normalize_name name1
    let norm2 := normalize_name name2
    if norm1 = norm2 then 1
    else
      let seqSim := seqRatioQ norm1 norm2
      let parts1 := splitWs norm1
      let parts2 := splitWs norm2
      if subsetStrs parts1 parts2 || subsetStrs parts2 parts1 then
        max (mkRat 4 5) seqSim
      else
        let commonCount := (parts1.eraseDups.filter (fun w => parts2.contains w)).length
        if commonCount ≠ 0 then
          -- `coverage * 0.7` with `coverage = commonCount / max(len(set1), len(set2))`,
          -- written as a single exact quotient
          max seqSim
            (mkRat (7 * commonCount)
              (10 * max parts1.eraseDups.length parts2.eraseDups.length))
        else seqSim

/-- Result of `NameMatcher.match_names` (the `method` and `explanation`
strings of the source dict carry no decision content; `method` is kept,
`explanation` — an f-string rendering of the similarity — is omitted). -/
structure NameMatchOutcome where
  is_match : Bool
  confidence : ℚ
  method : Str
  normalized_registered : Str
  normalized_extracted : Str
deriving DecidableEq, Repr

def match_names (registered_name extracted_name : Str) : NameMatchOutcome :=
  let similarity := calculate_similarity registered_name extracted_name
  { is_match := decide (mkRat 7 10 ≤ similarity)
    confidence := similarity
    method := "fuzzy_matching".data
    normalized_registered := normalize_name registered_name
    normalized_extracted := normalize_name extracted_name }

example : seqRatioQ "abb dbbe".data "ab bcebe".data = mkRat 5 8 := by decide
example : seqRatioQ "ab bcebe".data "abb dbbe".data = mkRat 3 4 := by decide

/-! ## A backtracking regex matcher with Python `re` semantics
The sources use a fixed battery of regular expressions built from character
classes, literals, greedy bounded/unbounded repetition, alternation, capture
groups and `\b`.  The matcher below enumerates candidate matches in exactly
Python's backtracking preference order (alternation: left first; greedy
repetition: longer first), so the head of the enumeration is the match
Python's engine returns.  `\b` needs the character preceding the current
position, which is threaded through as `prev`. -/

inductive RE where
  | eps : RE
  | cls : (Char → Bool) → RE
  | seq : RE → RE → RE
  | alt : RE → RE → RE
  | star : RE → RE
  | group : Nat → RE → RE
  | wordB : RE

/-- Captures: group index paired with the captured substring. -/
abbrev Caps := List (Nat × Str)

def isWordOpt : Option Char → Bool
  | some c => isWordChar c
  | none => false

/-- The character immediately before the rest of the input: the last
consumed character, or the previous boundary character. -/
def lastChar (prev : Option Char) (consumed : Str) : Option Char :=
  match consumed.getLast? with
  | some c => some c
  | none => prev

/-- All ways `re` can match a prefix of `s`, as `(consumed, rest, captures)`,
in Python's backtracking preference order.  `fuel` bounds the recursion
depth (the recursion is structural on `fuel` so that the kernel can
evaluate concrete instances); star iterations each consume at least one
character, so depth `(number of regex nodes + 1) * (s.length + 2)` — the
fuel every wrapper below supplies — is always enough. -/
def mrun : Nat → RE → Option Char → Str → List (Str × Str × Caps)
  | 0, _, _, _ => []
  | fuel + 1, re, prev, s =>
    match re with
    | .eps => [([], s, [])]
    | .cls p =>
      match s with
      | [] => []
      | c :: rest => if p c then [([c], rest, [])] else []
    | .seq a b =>
      (mrun fuel a prev s).flatMap (fun ra =>
        (mrun fuel b (lastChar prev ra.1) ra.2.1).map (fun rb =>
          (ra.1 ++ rb.1, rb.2.1, ra.2.2 ++ rb.2.2)))
    | .alt a b => mrun fuel a prev s ++ mrun fuel b prev s
    | .star a =>
      ((mrun fuel a prev s).flatMap (fun ra =>
        if ra.1.isEmpty then []
        else
          (mrun fuel (.star a) (lastChar prev ra.1) ra.2.1).map (fun rb =>
            (ra.1 ++ rb.1, rb.2.1, ra.2.2 ++ rb.2.2)))) ++ [([], s, [])]
    | .group i a =>
      (mrun fuel a prev s).map (fun ra => (ra.1, ra.2.1, (i, ra.1) :: ra.2.2))
    | .wordB =>
      if isWordOpt prev != isWordOpt s.head? then [([], s, [])] else []

/-- Number of nodes of a regex, used to size the matcher fuel. -/
def reSize : RE → Nat
  | .eps => 1
  | .cls _ => 1
  | .seq a b => reSize a + reSize b + 1
  | .alt a b => reSize a + reSize b + 1
  | .star a => reSize a + 1
  | .group _ a => reSize a + 1
  | .wordB => 1

/-- Fuel that lets `mrun` explore every backtracking branch of `re` on `s`. -/
def reFuel (re : RE) (s : Str) : Nat := (reSize re + 1) * (s.length + 2)

/-- Python's match at one position: the head of the backtracking
enumeration, projected to (full match, captures). -/
def firstMatch (l : List (Str × Str × Caps)) : Option (Str × Caps) :=
  match l with
  | r :: _ => some (r.1, r.2.2)
  | [] => none

/-- `re.search`: try each start position left to right; at the first
position with a match, return Python's match (head of the enumeration). -/
def reSearchAux (fuel : Nat) (re : RE) : Option Char → Str → Option (Str × Caps)
  | prev, [] => firstMatch (mrun fuel re prev [])
  | prev, c :: rest =>
    match firstMatch (mrun fuel re prev (c :: rest)) with
    | some r => some r
    | none => reSearchAux fuel re (some c) rest

def reSearch (re : RE) (s : Str) : Option (Str × Caps) :=
  reSearchAux (reFuel re s) re none s

/-- The string captured by group `i` (Python keeps the last value a group
captured; every group of the source patterns captures at most once). -/
def capsGet (caps : Caps) (i : Nat) : Str :=
  match caps.reverse.find? (fun p => p.1 == i) with
  | some p => p.2
  | none => []

/-- The tuple `re.findall` records for one match: the full match when the
pattern has no groups, the tuple of group captures otherwise (a single
group yields the bare capture, modelled as a one-element tuple). -/
def capsTuple (consumed : Str) (caps : Caps) (ng : Nat) : List Str :=
  if ng = 0 then [consumed]
  else (List.range ng).map (fun k => capsGet caps (k + 1))

/-- `re.findall`: scan left to right, collecting non-overlapping matches;
after a non-empty match continue at its end, otherwise advance one
character. -/
def reFindallAux (fuel : Nat) (re : RE) (ng : Nat) :
    Nat → Option Char → Str → List (List Str)
  | 0, _, _ => []
  | _ + 1, prev, [] =>
    match mrun fuel re prev [] with
    | r :: _ => [capsTuple r.1 r.2.2 ng]
    | [] => []
  | steps + 1, prev, c :: rest =>
    match mrun fuel re prev (c :: rest) with
    | r :: _ =>
      if r.1.isEmpty then
        capsTuple r.1 r.2.2 ng :: reFindallAux fuel re ng steps (some c) rest
      else
        capsTuple r.1 r.2.2 ng :: reFindallAux fuel re ng steps (lastChar prev r.1) r.2.1
    | [] => reFindallAux fuel re ng steps (some c) rest

def reFindall (re : RE) (ng : Nat) (s : Str) : List (List Str) :=
  reFindallAux (reFuel re s) re ng (s.length + 1) none s

/-- `re.match(r'^pat$', s)` truthiness: some backtracking branch consumes
the whole string starting at position 0. -/
def reMatchFull (re : RE) (s : Str) : Bool :=
  ((mrun (reFuel re s) re none s).find? (fun r => r.2.1.isEmpty)).isSome

/-! ### Constructors mirroring regex syntax -/

/-- A literal character. -/
def chr (c : Char) : RE := .cls (fun d => d == c)

/-- A literal character under `re.IGNORECASE`. -/
def chrCI (c : Char) : RE := .cls (fun d => toLowerChar d == toLowerChar c)

/-- A literal string. -/
def lit (cs : Str) : RE := cs.foldr (fun c r => .seq (chr c) r) .eps

/-- A literal string under `re.IGNORECASE`. -/
def litCI (cs : Str) : RE := cs.foldr (fun c r => .seq (chrCI c) r) .eps

/-- `X{n}`: exactly `n` copies. -/
def repExact (a : RE) : Nat → RE
  | 0 => .eps
  | n + 1 => .seq a (repExact a n)

/-- `X{0,n}`, greedy: prefer more copies. -/
def repUpTo (a : RE) : Nat → RE
  | 0 => .eps
  | n + 1 => .alt (.seq a (repUpTo a n)) .eps

/-- `X{lo,hi}`, greedy. -/
def repRange (a : RE) (lo hi : Nat) : RE := .seq (repExact a lo) (repUpTo a (hi - lo))

/-- `X+`, greedy. -/
def plus (a : RE) : RE := .seq a (.star a)

/-- `X?`, greedy. -/
def opt (a : RE) : RE := .alt a .eps

/-- `\d`. -/
def dCls : RE := .cls isAsciiDigit

/-- `\s`. -/
def sCls : RE := .cls isPySpace

/-- `[A-Z]` under `re.IGNORECASE` (any letter). -/
def upperCI : RE := .cls isAsciiAlpha

example :
    reSearch (.seq (.group 1 (repRange (.cls isAsciiUpper) 2 4)) (plus dCls))
      "xx ABC123 y".data =
      some ("ABC123".data, [(1, "ABC".data)]) := by decide
example :
    reFindall (.seq .wordB (.group 1 (plus dCls))) 1 "12 345".data =
      [["12".data], ["345".data]] := by decide

/-! ## Character classes of the transcript patterns -/

/-- `[A-Z]` without `re.IGNORECASE`. -/
def clsUpper : RE := .cls isAsciiUpper

/-- `[A-F]` without `re.IGNORECASE`. -/
def clsAF : RE := .cls (fun c => 65 ≤ c.toNat && c.toNat ≤ 70)

/-- `[A-F]` under `re.IGNORECASE`. -/
def clsAFci : RE := .cls (fun c => 65 ≤ (toUpperChar c).toNat && (toUpperChar c).toNat ≤ 70)

/-- `[+-]`. -/
def clsPM : RE := .cls (fun c => c == '+' || c == '-')

/-- `[DIXZ]` under `re.IGNORECASE`. -/
def clsDIXZci : RE :=
  .cls (fun c => toUpperChar c == 'D' || toUpperChar c == 'I' ||
    toUpperChar c == 'X' || toUpperChar c == 'Z')

/-- `[IXZ]` under `re.IGNORECASE`. -/
def clsIXZci : RE :=
  .cls (fun c => toUpperChar c == 'I' || toUpperChar c == 'X' || toUpperChar c == 'Z')

/-- `[A-Z\s\.\&]` under `re.IGNORECASE`. -/
def clsTitleA : RE :=
  .cls (fun c => isAsciiAlpha c || isPySpace c || c == '.' || c == '&')

/-- `[A-Z\s\.\&/]` under `re.IGNORECASE`. -/
def clsTitleB : RE :=
  .cls (fun c => isAsciiAlpha c || isPySpace c || c == '.' || c == '&' || c == '/')

/-- `[A-Za-z\s]`. -/
def clsAlphaSpace : RE := .cls (fun c => isAsciiAlpha c || isPySpace c)

/-- `[–-]` (en dash or hyphen). -/
def clsDash : RE := .cls (fun c => c == '–' || c == '-')

/-- `[^–-]`. -/
def clsNotDash : RE := .cls (fun c => !(c == '–' || c == '-'))

/-- `[^|]`. -/
def clsNotPipe : RE := .cls (fun c => !(c == '|'))

/-- `[^()]`. -/
def clsNotParen : RE := .cls (fun c => !(c == '(' || c == ')'))

def seqL (l : List RE) : RE := l.foldr .seq .eps

/-! ## `TextCleaner.extract_course_code`, grades, titles
(`transcript_data_extractor.py`, lines 136-166 and 564-628.) -/

/-- `r'\b([A-Z]{2,4})\s*(\d{3,4}[A-Z]?)\b'` (case-sensitive; applied to the
uppercased text). -/
def courseCodeTwoGroupRe : RE :=
  seqL [.wordB, .group 1 (repRange clsUpper 2 4), .star sCls,
    .group 2 (.seq (repRange dCls 3 4) (opt clsUpper)), .wordB]

def extract_course_code (text : Str) : Option Str :=
  match reSearch courseCodeTwoGroupRe (pyUpper text) with
  | some r => some (capsGet r.2 1 ++ capsGet r.2 2)
  | none => none

def normalize_grade (grade : Str) : Str :=
  if grade.isEmpty then []
  else
    let g := pyStrip (pyUpper grade)
    if g = "PASS".data then "P".data
    else if g = "FAIL".data then "F".data
    else if g = "INCOMPLETE".data then "I".data
    else if g = "WITHDRAWN".data then "W".data
    else if g = "CREDIT".data then "CR".data
    else if g = "NO CREDIT".data then "NC".data
    else g

def validGrades : List Str :=
  ["A", "B", "C", "D", "E", "F", "I", "X", "Z", "P", "PASS", "FAIL",
    "F*", "AU", "EX", "N/A"].map String.data

/-- `_is_valid_grade`: membership in the table, or `re.match(r'^[A-F][+-]?$', …)`. -/
def is_valid_grade (grade : Str) : Bool :=
  validGrades.contains grade || reMatchFull (.seq clsAF (opt clsPM)) grade

def determine_unit_status (grade : Str) : Str :=
  if (["I", "X", "Z", "F*"].map String.data).contains grade then "incomplete".data
  else if (["F", "FAIL"].map String.data).contains grade then "failed".data
  else if (["AU", "N/A", "EX"].map String.data).contains grade then "exempt".data
  else "complete".data

/-- Python `str.title()` (ASCII letters are the cased characters). -/
def pyTitleAux : Bool → Str → Str
  | _, [] => []
  | prevCased, c :: rest =>
    if isAsciiAlpha c then
      (if prevCased then toLowerChar c else toUpperChar c) :: pyTitleAux true rest
    else c :: pyTitleAux false rest

def pyTitle (s : Str) : Str := pyTitleAux false s

/-- `_clean_title`: map non-alphanumeric/space to space, collapse, strip,
title-case. -/
def clean_title (title : Str) : Str :=
  pyTitle (pyStrip (collapseWs (title.map (fun c =>
    if isAsciiAlpha c || isAsciiDigit c || isPySpace c then c else ' '))))

/-! ## `CleanedUnit` and `_parse_unit_match` / `_is_valid_unit` -/

structure CleanedUnit where
  code : Str
  title : Str
  grade : Str
  units : Nat
  status : Str
  confidence : ℚ
deriving DecidableEq, Repr

/-- `unit.code.replace(' ', '').upper()`. -/
def normUnitCode (code : Str) : Str := pyUpper (code.filter (fun c => !(c == ' ')))

def is_valid_unit (u : CleanedUnit) : Bool :=
  !u.code.isEmpty && 5 ≤ u.code.length && u.code.length ≤ 10 &&
    !u.title.isEmpty && 3 ≤ u.title.length &&
    !((["PAGE", "YEAR", "SEMESTER", "GRADE"].map String.data).any
      (fun w => isSubstring w (pyUpper u.code)))

/-- Common body of the two `_parse_unit_match` branches: `m0` is the code
capture, `m1` the title capture, `mg` the capture taken as the grade
(`match[2]` for three groups, `match[3]` for four); each course counts as
one unit and pattern matches carry confidence 0.9. -/
def parse_unit_fields (m0 m1 mg : Str) : Option CleanedUnit :=
  let code :=
    match extract_course_code m0 with
    | some c => c
    | none => pyUpper (m0.filter (fun c => !(c == ' ')))
  let title := clean_title m1
  let grade := normalize_grade mg
  if !is_valid_grade grade then none
  else
    some { code := code, title := title, grade := grade, units := 1,
           status := determine_unit_status grade, confidence := mkRat 9 10 }

def parse_unit_match (m : List Str) : Option CleanedUnit :=
  match m with
  | [m0, m1, m2] => parse_unit_fields m0 m1 m2
  | [m0, m1, _, m3] => parse_unit_fields m0 m1 m3
  | _ => none

/-! ## The six unit patterns of `_extract_units`
(`transcript_data_extractor.py`, lines 395-414), paired with their group
counts; all are used under `re.IGNORECASE`. -/

/-- `([A-Z]{2,4}\s+\d{3,4})\s+([A-Z][A-Z\s\.\&]{8,60})\s+\d+\s+\d+\s+\d+\s+([A-F][+-]?|[DIXZ])\s+(\d+)` -/
def unitP1 : RE :=
  seqL [.group 1 (seqL [repRange upperCI 2 4, plus sCls, repRange dCls 3 4]),
    plus sCls,
    .group 2 (.seq upperCI (repRange clsTitleA 8 60)),
    plus sCls, plus dCls, plus sCls, plus dCls, plus sCls, plus dCls, plus sCls,
    .group 3 (.alt (.seq clsAFci (opt clsPM)) clsDIXZci),
    plus sCls,
    .group 4 (plus dCls)]

/-- `([A-Z]{2,4}\s+\d{3,4})\s+([A-Z][A-Z\s\.\&/]{5,50})\s+(?:\d+\s+){2,3}([A-F][+-]?|[DIXZ])\s+(\d+)` -/
def unitP2 : RE :=
  seqL [.group 1 (seqL [repRange upperCI 2 4, plus sCls, repRange dCls 3 4]),
    plus sCls,
    .group 2 (.seq upperCI (repRange clsTitleB 5 50)),
    plus sCls,
    repRange (.seq (plus dCls) (plus sCls)) 2 3,
    .group 3 (.alt (.seq clsAFci (opt clsPM)) clsDIXZci),
    plus sCls,
    .group 4 (plus dCls)]

/-- `([A-Z]{2,4}\s*\d{3,4}[A-Z]?)\s*[–-]\s*([^–-]+)\s*[–-]\s*([A-F][+-]?|[IXZ]|PASS|FAIL)` -/
def unitP3 : RE :=
  seqL [.group 1 (seqL [repRange upperCI 2 4, .star sCls, repRange dCls 3 4, opt upperCI]),
    .star sCls, clsDash, .star sCls,
    .group 2 (plus clsNotDash),
    .star sCls, clsDash, .star sCls,
    .group 3 (.alt (.seq clsAFci (opt clsPM))
      (.alt clsIXZci (.alt (litCI "PASS".data) (litCI "FAIL".data))))]

/-- `([A-Z]{2,4}\d{3,4})\s*\|\s*([^|]+)\s*\|\s*(\d+)\s*\|\s*([A-F][+-]?|[IXZ])` -/
def unitP4 : RE :=
  seqL [.group 1 (.seq (repRange upperCI 2 4) (repRange dCls 3 4)),
    .star sCls, chr '|', .star sCls,
    .group 2 (plus clsNotPipe),
    .star sCls, chr '|', .star sCls,
    .group 3 (plus dCls),
    .star sCls, chr '|', .star sCls,
    .group 4 (.alt (.seq clsAFci (opt clsPM)) clsIXZci)]

/-- `([A-Z]{2,4}\s*\d{3,4})\s+([A-Za-z\s]{10,50})\s+([A-F][+-]?|[IXZ])` -/
def unitP5 : RE :=
  seqL [.group 1 (seqL [repRange upperCI 2 4, .star sCls, repRange dCls 3 4]),
    plus sCls,
    .group 2 (repRange clsAlphaSpace 10 50),
    plus sCls,
    .group 3 (.alt (.seq clsAFci (opt clsPM)) clsIXZci)]

/-- `([A-Z]{2,4}\s*\d{3,4})\s+([^()]+)\s*\((\d+)\)\s*([A-F][+-]?|[IXZ])` -/
def unitP6 : RE :=
  seqL [.group 1 (seqL [repRange upperCI 2 4, .star sCls, repRange dCls 3 4]),
    plus sCls,
    .group 2 (plus clsNotParen),
    .star sCls, chr '(',
    .group 3 (plus dCls),
    chr ')', .star sCls,
    .group 4 (.alt (.seq clsAFci (opt clsPM)) clsIXZci)]

def unitPatterns : List (RE × Nat) :=
  [(unitP1, 4), (unitP2, 4), (unitP3, 3), (unitP4, 4), (unitP5, 3), (unitP6, 4)]

/-- `r'\b([A-Z]{2,4}\s*\d{3,4}[A-Z]?)\b'` (case-sensitive). -/
def courseCodeRe : RE :=
  seqL [.wordB,
    .group 1 (seqL [repRange clsUpper 2 4, .star sCls, repRange dCls 3 4, opt clsUpper]),
    .wordB]

/-- `r'\b[A-Z]{2,4}\d{3,4}\b'` (case-sensitive, no groups). -/
def simpleP1 : RE :=
  seqL [.wordB, repRange clsUpper 2 4, repRange dCls 3 4, .wordB]

/-- `r'\b[A-Z]{3,4}\s+\d{3,4}\b'` (case-sensitive, no groups). -/
def simpleP2 : RE :=
  seqL [.wordB, repRange clsUpper 3 4, plus sCls, repRange dCls 3 4, .wordB]

/-! ## `_extract_units` (`transcript_data_extractor.py`, lines 382-487)
State threaded through the loops: the accumulated units list and the
`found_courses` set of normalized codes (a list; membership only). -/

def unitsSkipWords : List Str :=
  ["UNIT CODE", "UNIT DESCRIPTION", "GRADE CREDIT", "PAGE", "PROGRESSIVE",
    "SIGNATURE", "ACADEMIC REGISTRAR", "KEY:", "MEAN", "BALANCE"].map String.data

/-- The synthetic unit created for a bare course-code hit. -/
def basicUnit (code : Str) (conf : ℚ) : CleanedUnit :=
  { code := code, title := "Course".data, grade := "A".data, units := 1,
    status := "complete".data, confidence := conf }

/-- One accepted pattern tuple: parse it; a valid unit is appended together
with its normalized code (no duplicate check on this path). -/
def unitPatternStep (st : List CleanedUnit × List Str) (m : List Str) :
    List CleanedUnit × List Str :=
  match parse_unit_match m with
  | some u =>
    if is_valid_unit u then (st.1 ++ [u], st.2 ++ [normUnitCode u.code]) else st
  | none => st

/-- One bare course-code hit of the per-line fallback: dropped when already
seen or shorter than 5 characters, else appended with confidence 0.5. -/
def unitFallbackStep (st : List CleanedUnit × List Str) (m : List Str) :
    List CleanedUnit × List Str :=
  match m with
  | [code] =>
    let ncode := normUnitCode code
    if !st.2.contains ncode && 5 ≤ ncode.length then
      (st.1 ++ [basicUnit code (mkRat 1 2)], st.2 ++ [ncode])
    else st
  | _ => st

/-- One bare course-code hit of the whole-text simple detection: dropped
when already seen, else appended with confidence 0.3. -/
def unitSimpleStep (st : List CleanedUnit × List Str) (m : List Str) :
    List CleanedUnit × List Str :=
  match m with
  | [code] =>
    let ncode := normUnitCode code
    if !st.2.contains ncode then
      (st.1 ++ [basicUnit code (mkRat 3 10)], st.2 ++ [ncode])
    else st
  | _ => st

/-- Processing of one raw line of `_extract_units`. -/
def processLine (st : List CleanedUnit × List Str) (rawLine : Str) :
    List CleanedUnit × List Str :=
  let line := pyStrip rawLine
  if line.length < 5 then st
  else if unitsSkipWords.any (fun w => isSubstring w (pyUpper line)) then st
  else
    let st1 := unitPatterns.foldl (fun acc p =>
      (reFindall p.1 p.2 line).foldl unitPatternStep acc) st
    if unitPatterns.any (fun p => (reSearch p.1 line).isSome) then st1
    else (reFindall courseCodeRe 1 line).foldl unitFallbackStep st1

def extract_units (text : Str) : List CleanedUnit :=
  let lines := splitOnChar '\n' text
  let st := lines.foldl processLine ([], [])
  if st.1.isEmpty then
    ([simpleP1, simpleP2].foldl (fun acc p =>
      (reFindall p 0 (joinWith [' '] lines)).foldl unitSimpleStep acc) st).1
  else st.1

/-- The `units` field of `TranscriptDataExtractor.extract_structured_data`:
the extractor first cleans the whole text, then extracts units from the
cleaned text (lines 185 and 192 of the source). -/
def extract_structured_units (text : Str) : List CleanedUnit :=
  extract_units (clean_text text)

/-! ## `_extract_student_id` (`transcript_data_extractor.py`, lines 285-304)
Six patterns tried in order with `re.search(..., re.IGNORECASE)`; the first
hit returns `match.group(1).upper()`; no hit returns the empty string. -/

/-- `[:\s]`. -/
def clsColonSpace : RE := .cls (fun c => c == ':' || isPySpace c)

/-- `[A-Z0-9]` under `re.IGNORECASE`. -/
def clsAlnumCI : RE := .cls (fun c => isAsciiAlpha c || isAsciiDigit c)

/-- `(?:Student\s+No|Admission\s+Number):\s*(\d{6,8})` -/
def sidP1 : RE :=
  seqL [.alt (seqL [litCI "Student".data, plus sCls, litCI "No".data])
      (seqL [litCI "Admission".data, plus sCls, litCI "Number".data]),
    chr ':', .star sCls, .group 1 (repRange dCls 6 8)]

/-- `#(\d{6,8})\s+Page` -/
def sidP2 : RE :=
  seqL [chr '#', .group 1 (repRange dCls 6 8), plus sCls, litCI "Page".data]

/-- `(?:student\s+id|id\s+number|registration)[:\s]+([A-Z0-9]{6,15})` -/
def sidP3 : RE :=
  seqL [.alt (seqL [litCI "student".data, plus sCls, litCI "id".data])
      (.alt (seqL [litCI "id".data, plus sCls, litCI "number".data])
        (litCI "registration".data)),
    plus clsColonSpace, .group 1 (repRange clsAlnumCI 6 15)]

/-- `(?:id)[:\s]+([A-Z0-9]{6,15})` -/
def sidP4 : RE :=
  seqL [litCI "id".data, plus clsColonSpace, .group 1 (repRange clsAlnumCI 6 15)]

/-- `\b([A-Z]{2,3}\d{6,10})\b` -/
def sidP5 : RE :=
  seqL [.wordB, .group 1 (.seq (repRange upperCI 2 3) (repRange dCls 6 10)), .wordB]

/-- `\b(\d{6,8})\b` -/
def sidP6 : RE := seqL [.wordB, .group 1 (repRange dCls 6 8), .wordB]

def studentIdPatterns : List RE := [sidP1, sidP2, sidP3, sidP4, sidP5, sidP6]

def extract_student_id (text : Str) : Str :=
  match studentIdPatterns.findSome?
      (fun p => (reSearch p text).map (fun r => pyUpper (capsGet r.2 1))) with
  | some sid => sid
  | none => []

/-! ## `_extract_academic_period` (`transcript_data_extractor.py`, lines 328-380) -/

/-- `Stage:\s*Y(\d+)S\d+` -/
def yearP1 : RE :=
  seqL [litCI "Stage:".data, .star sCls, chrCI 'Y', .group 1 (plus dCls),
    chrCI 'S', plus dCls]

/-- `year[:\s]*(\d+)` -/
def yearP2 : RE := seqL [litCI "year".data, .star clsColonSpace, .group 1 (plus dCls)]

/-- `(?:level|class)[:\s]*(\d+)` -/
def yearP3 : RE :=
  seqL [.alt (litCI "level".data) (litCI "class".data), .star clsColonSpace,
    .group 1 (plus dCls)]

/-- `(\d+)(?:st|nd|rd|th)\s+year` -/
def yearP4 : RE :=
  seqL [.group 1 (plus dCls),
    .alt (litCI "st".data) (.alt (litCI "nd".data) (.alt (litCI "rd".data) (litCI "th".data))),
    plus sCls, litCI "year".data]

def yearPatterns : List RE := [yearP1, yearP2, yearP3, yearP4]

/-- `Stage:\s*Y\d+S(\d+)` -/
def semP1 : RE :=
  seqL [litCI "Stage:".data, .star sCls, chrCI 'Y', plus dCls, chrCI 'S',
    .group 1 (plus dCls)]

/-- `semester[:\s]*(\d+)` -/
def semP2 : RE := seqL [litCI "semester".data, .star clsColonSpace, .group 1 (plus dCls)]

/-- `sem[:\s]*(\d+)` -/
def semP3 : RE := seqL [litCI "sem".data, .star clsColonSpace, .group 1 (plus dCls)]

/-- `term[:\s]*(\d+)` -/
def semP4 : RE := seqL [litCI "term".data, .star clsColonSpace, .group 1 (plus dCls)]

def semPatterns : List RE := [semP1, semP2, semP3, semP4]

/-- `(JAN-APR|SEPT-DEC|MAY-AUG)(\d{2})` (case-sensitive). -/
def termRe : RE :=
  .seq (.group 1 (.alt (lit "JAN-APR".data) (.alt (lit "SEPT-DEC".data) (lit "MAY-AUG".data))))
    (.group 2 (repExact dCls 2))

/-- `sorted(entries, key=int(yy), reverse=True)[0]`: by stability, the first
entry attaining the maximal two-digit year. -/
def latestTermEntry : List (List Str) → Option (List Str)
  | [] => none
  | e :: es =>
    some (es.foldl
      (fun b x => if pyInt (b.getD 1 []) < pyInt (x.getD 1 []) then x else b) e)

/-- One iteration of the year loop: a search hit updates
`year = max(year, year_num)` only when `1 <= year_num <= 6`. -/
def yearStep (text : Str) (y : Nat) (p : RE) : Nat :=
  match reSearch p text with
  | some r =>
    let n := pyInt (capsGet r.2 1)
    if 1 ≤ n ∧ n ≤ 6 then max y n else y
  | none => y

/-- One iteration of the semester loop: a search hit updates
`semester = max(semester, sem_num)` only when `1 <= sem_num <= 2`. -/
def semStep (text : Str) (s : Nat) (p : RE) : Nat :=
  match reSearch p text with
  | some r =>
    let n := pyInt (capsGet r.2 1)
    if 1 ≤ n ∧ n ≤ 2 then max s n else s
  | none => s

def extract_academic_period (text : Str) : Nat × Nat :=
  let year0 := yearPatterns.foldl (yearStep text) 0
  let semester := semPatterns.foldl (semStep text) 2
  let year :=
    match latestTermEntry (reFindall termRe 2 text) with
    | none => year0
    | some e =>
      -- latest_year = 2000 + yy; estimated = min(6, max(1, 2025 - latest_year + 4))
      let estimated : Int := min 6 (max 1 (2025 - (2000 + (pyInt (e.getD 1 []) : Int)) + 4))
      max year0 estimated.toNat
  (year, semester)

/-! ## `_calculate_eligibility`
(`core/views/document_verification_views.py`, lines 507-572) together with
the caller's `required_units` selection (lines 372-373). -/

/-- `required_units = 39 if is_degree else 20`. -/
def required_units_selection (is_degree : Bool) : Nat :=
  if is_degree then 39 else 20

/-- The fields of the transcript data the eligibility calculation reads. -/
structure TranscriptSummary where
  student_name : Str
  completed_units : Nat
  units : List CleanedUnit
  year : Nat
  semester : Nat
deriving Repr

structure EligibilityResult where
  overall : Bool
  name_matched : Bool
  has_required_units : Bool
  no_incompletes : Bool
  meets_year_requirement : Bool
  required_units : Nat
  completed_units : Nat
  incomplete_count : Nat
  summary : Str
deriving DecidableEq, Repr

/-- Python `str(n)` for naturals. -/
def natToStr (n : Nat) : Str := Nat.toDigits 10 n

def calculate_eligibility (td : TranscriptSummary) (name_matched : Bool)
    (required_units : Nat) (is_degree : Bool) : EligibilityResult :=
  let has_required_units := decide (required_units ≤ td.completed_units)
  let eligibility_year := if is_degree then 3 else 2
  -- eligibility_semester = 2
  let incomplete_units := td.units.filter (fun u => u.status = "incomplete".data)
  let past_eligibility :=
    decide (eligibility_year < td.year) ||
      (decide (td.year = eligibility_year) && decide (2 ≤ td.semester))
  let no_incompletes :=
    if past_eligibility then true else decide (incomplete_units.length = 0)
  let year_requirement :=
    if is_degree then
      (decide (td.year = 3) && decide (2 ≤ td.semester)) || decide (3 < td.year)
    else
      (decide (td.year = 2) && decide (2 ≤ td.semester)) || decide (2 < td.year)
  let overall := name_matched && has_required_units && no_incompletes && year_requirement
  let summary_parts : List Str :=
    (if !name_matched then
      ["Name mismatch (extracted: '".data ++ td.student_name ++ "')".data] else []) ++
    (if !has_required_units then
      ["Insufficient units (".data ++ natToStr td.completed_units ++ "/".data ++
        natToStr required_units ++ ")".data] else []) ++
    (if !no_incompletes && !past_eligibility then
      [natToStr incomplete_units.length ++ " incomplete units before eligibility period".data]
     else []) ++
    (if !year_requirement then
      ["Must reach ".data ++
        (if is_degree then "Year 3 Sem 2".data else "Year 2 Sem 2".data) ++
        " (currently Year ".data ++ natToStr td.year ++ ", Sem ".data ++
        natToStr td.semester ++ ")".data] else [])
  { overall := overall
    name_matched := name_matched
    has_required_units := has_required_units
    no_incompletes := no_incompletes
    meets_year_requirement := year_requirement
    required_units := required_units
    completed_units := td.completed_units
    incomplete_count := if !past_eligibility then incomplete_units.length else 0
    summary :=
      if summary_parts.isEmpty then "All requirements met".data
      else joinWith "; ".data summary_parts }

/-! ## `ComprehensiveEnhancedOCR.analyze_document`
(`comprehensive_enhanced_ocr.py`, lines 135-237.)  The PyMuPDF document is
modelled by the outcome of opening it: an exception message, or the list of
per-page `_analyze_page` summaries (those are library-bound measurements of
the page).  (For a zero-page document the averages below would divide by
zero — in Python that raises and lands in the same fallback branch; the
claims only exercise the fallback branch.) -/

structure PageAnalysis where
  text_blocks : Nat
  image_blocks : Nat
  table_candidates : Nat
  text_coverage : ℚ
  digital_score : Nat
  scanned_score : Nat
  table_score : Nat
  complex_layout_score : Nat
deriving Repr

structure DocumentAnalysis where
  is_digital : Bool
  is_scanned : Bool
  has_tables : Bool
  has_complex_layout : Bool
  text_coverage : ℚ
  image_coverage : ℚ
  page_count : Nat
  recommended_method : Str
  confidence : ℚ
deriving DecidableEq, Repr

def analyze_document (opened : Except Str (List PageAnalysis)) : DocumentAnalysis :=
  match opened with
  | .ok pages =>
    let page_count := pages.length
    let pages_to_analyze := min 5 page_count
    let analyzed := pages.take pages_to_analyze
    let total_image_blocks := (analyzed.map (·.image_blocks)).sum
    let total_text_coverage := (analyzed.map (·.text_coverage)).sum
    let digital_indicators := (analyzed.map (·.digital_score)).sum
    let scanned_indicators := (analyzed.map (·.scanned_score)).sum
    let table_indicators := (analyzed.map (·.table_score)).sum
    let complex_layout_indicators := (analyzed.map (·.complex_layout_score)).sum
    let avg_text_coverage := total_text_coverage / (pages_to_analyze : ℚ)
    let avg_image_coverage := ((total_image_blocks : ℚ) / (pages_to_analyze : ℚ)) * 10
    let is_digital := decide (scanned_indicators < digital_indicators)
    let is_scanned := decide (digital_indicators < scanned_indicators)
    let has_tables := decide (pages_to_analyze * 2 < table_indicators)
    let has_complex_layout := decide (pages_to_analyze < complex_layout_indicators)
    let recommended_method :=
      if is_digital && has_tables then "digital_with_tables".data
      else if is_digital then "digital_text".data
      else if is_scanned && has_tables then "ocr_with_tables".data
      else if is_scanned then "advanced_ocr".data
      else "hybrid".data
    { is_digital := is_digital
      is_scanned := is_scanned
      has_tables := has_tables
      has_complex_layout := has_complex_layout
      text_coverage := avg_text_coverage
      image_coverage := avg_image_coverage
      page_count := page_count
      recommended_method := recommended_method
      confidence :=
        mkRat (max digital_indicators scanned_indicators)
          (max (digital_indicators + scanned_indicators) 1) }
  | .error _ =>
    { is_digital := false
      is_scanned := true
      has_tables := false
      has_complex_layout := false
      text_coverage := 0
      image_coverage := 100
      page_count := 1
      recommended_method := "advanced_ocr".data
      confidence := mkRat 1 2 }

/-! ## `ComprehensiveEnhancedOCR.extract_digital_text_enhanced`
(`comprehensive_enhanced_ocr.py`, lines 353-411) and `_get_method_text`
(lines 938-965).  The three extraction libraries are modelled by the
`ExtractionMethod` records they return and by the page texts the two
re-extraction branches of `_get_method_text` would read (`none` models an
exception while opening). -/

structure ExtractionMethod where
  name : Str
  confidence : ℚ
  text_length : Nat
  success : Bool
deriving Repr

structure PdfTexts where
  pymupdf_pages : Option (List Str)
  pdfplumber_pages : Option (List Str)
deriving Repr

def get_method_text (pdf : PdfTexts) (method_name : Str) (is_ocr : Bool) : Str :=
  if isSubstring "pymupdf".data method_name && !is_ocr then
    match pdf.pymupdf_pages with
    | some pages => pages.foldl (fun acc p => acc ++ p ++ ['\n']) []
    | none => []
  else if isSubstring "pdfplumber".data method_name then
    match pdf.pdfplumber_pages with
    | some pages => pages.foldl (fun acc p => acc ++ p ++ ['\n']) []
    | none => []
  else
    match pdf.pymupdf_pages with
    | some pages => pages.foldl (fun acc p => acc ++ p ++ ['\n']) []
    | none => []

/-- `max(successful_methods, key=lambda x: x.confidence)`: the first method
attaining the maximal confidence. -/
def maxByConfidence : List ExtractionMethod → Option ExtractionMethod
  | [] => none
  | m :: ms =>
    some (ms.foldl (fun b x => if b.confidence < x.confidence then x else b) m)

/-- `all_texts = [m.name for m in methods_tried if m.success]` followed by
`"\n".join(filter(None, all_texts))` — the source's placeholder joins the
method *names*; computed but then discarded by the function below. -/
def fallback_combined_text (methods : List ExtractionMethod) : Str :=
  joinWith ['\n'] (((methods.filter (·.success)).map (·.name)).filter (fun t => !t.isEmpty))

structure EnhancedExtractionOutcome where
  text : Str
  primary_method : Str
  confidence : ℚ
deriving DecidableEq, Repr

def extract_digital_text_enhanced (pdf : PdfTexts)
    (pymupdf_result pdfplumber_result pdfminer_result : ExtractionMethod) :
    EnhancedExtractionOutcome :=
  let methods_tried := [pymupdf_result, pdfplumber_result, pdfminer_result]
  let successful_methods :=
    methods_tried.filter (fun m => m.success && decide (mkRat 1 10 < m.confidence))
  let sel : Str × ℚ :=
    match maxByConfidence successful_methods with
    | some best => (best.name, best.confidence)
    | none => ("combined".data, mkRat 1 10)
  -- the final text is re-extracted from the bytes with the selected method
  -- name; `combined_text` (= `fallback_combined_text methods_tried` in the
  -- no-qualifier case) is never used
  { text := get_method_text pdf sel.1 false
    primary_method := sel.1
    confidence := sel.2 }

/-! ## General helper lemmas about characters -/

theorem char_ofNat_toNat {n : Nat} (h1 : n < 55296) : (Char.ofNat n).toNat = n := by
  unfold Char.ofNat
  rw [dif_pos (Or.inl h1)]
  rfl

theorem char_eq_of_toNat {c d : Char} (h : c.toNat = d.toNat) : c = d := by
  apply Char.ext
  apply UInt32.ext
  simpa [Char.toNat, UInt32.toNat] using h

theorem isAsciiLower_iff {c : Char} :
    isAsciiLower c = true ↔ 97 ≤ c.toNat ∧ c.toNat ≤ 122 := by
  simp [isAsciiLower]

theorem isAsciiUpper_iff {c : Char} :
    isAsciiUpper c = true ↔ 65 ≤ c.toNat ∧ c.toNat ≤ 90 := by
  simp [isAsciiUpper]

theorem toUpperChar_toNat (c : Char) :
    (toUpperChar c).toNat = if isAsciiLower c then c.toNat - 32 else c.toNat := by
  unfold toUpperChar
  split
  · rename_i h
    rw [isAsciiLower_iff] at h
    rw [char_ofNat_toNat (by omega)]
  · rfl

theorem toLowerChar_toNat (c : Char) :
    (toLowerChar c).toNat = if isAsciiUpper c then c.toNat + 32 else c.toNat := by
  unfold toLowerChar
  split
  · rename_i h
    rw [isAsciiUpper_iff] at h
    rw [char_ofNat_toNat (by omega)]
  · rfl

/-- `str.upper` maps no character to a character with code below 65
(in particular never to a digit) other than that character itself. -/
theorem toUpperChar_low_fixed {c d : Char} (hd : d.toNat < 65)
    (h : toUpperChar c = d) : c = d := by
  apply char_eq_of_toNat
  have hn := toUpperChar_toNat c
  rw [h] at hn
  by_cases hl : isAsciiLower c = true
  · rw [if_pos hl] at hn
    rw [isAsciiLower_iff] at hl
    omega
  · rw [if_neg hl] at hn
    omega

/-! ## C1, C3 (counterexample part), C4, C5, C6 (counterexample part), C8 -/

/-- C1 (evaluation at the failing input): the spec demands that any text
containing the row `CMT 108 INTRO. TO WEB DEVELOPMENT 24 50 74 A 3` yields
exactly one unit `CMT108 / A / complete`; in the code, `clean_text` first
rewrites every `0` to `O` and every `1` to `I`, mangling the row so that no
unit pattern (each requires a 3-4 digit run) can match: the extractor
returns no units at all. -/
theorem C1_cmt108_row_yields_no_units :
    clean_text "CMT 108 INTRO. TO WEB DEVELOPMENT 24 50 74 A 3".data =
      "CMT IO8 INTRO. TO WEB DEVELOPMENT 24 5O 74 A 3".data ∧
    extract_structured_units "CMT 108 INTRO. TO WEB DEVELOPMENT 24 50 74 A 3".data = [] :=
  ⟨by decide, by decide⟩

/-- C3 (counterexample): a text in which the tabular pattern matches the
same course code twice produces two units with the same normalized code —
the pattern path of `_extract_units` appends without consulting
`found_courses`, so duplicates are not collapsed. -/
theorem C3_duplicate_codes_counterexample :
    (extract_structured_units "AB234|Net|3|A AB234|Net|3|A".data).length = 2 ∧
    (extract_structured_units "AB234|Net|3|A AB234|Net|3|A".data).map
      (fun u => normUnitCode u.code) = ["AB234".data, "AB234".data] := by
  exact ⟨by decide, by decide⟩

/-- C4: with a degree programme the caller selects `required_units = 39`,
and `_calculate_eligibility` sets `has_required_units = (completed ≥ 39)`,
`meets_year_requirement = (year == 3 ∧ semester ≥ 2) ∨ year > 3`, and
`overall = name_matched ∧ has_required_units ∧ no_incompletes ∧
meets_year_requirement`; at `completed=45, year=4, semester=2` the two
flags hold, and changing `completed` to 30 falsifies `has_required_units`
and `overall`. -/
theorem C4_eligibility_degree_rules (td : TranscriptSummary) (nm : Bool) :
    (calculate_eligibility td nm (required_units_selection true) true).required_units = 39 ∧
    (calculate_eligibility td nm (required_units_selection true) true).has_required_units
      = decide (39 ≤ td.completed_units) ∧
    (calculate_eligibility td nm (required_units_selection true) true).meets_year_requirement
      = ((decide (td.year = 3) && decide (2 ≤ td.semester)) || decide (3 < td.year)) ∧
    (calculate_eligibility td nm (required_units_selection true) true).overall
      = (nm &&
        (calculate_eligibility td nm (required_units_selection true) true).has_required_units &&
        (calculate_eligibility td nm (required_units_selection true) true).no_incompletes &&
        (calculate_eligibility td nm (required_units_selection true) true).meets_year_requirement) ∧
    (td.completed_units = 45 ∧ td.year = 4 ∧ td.semester = 2 →
      (calculate_eligibility td nm (required_units_selection true) true).has_required_units = true ∧
      (calculate_eligibility td nm (required_units_selection true) true).meets_year_requirement = true) ∧
    (td.completed_units = 30 →
      (calculate_eligibility td nm (required_units_selection true) true).has_required_units = false ∧
      (calculate_eligibility td nm (required_units_selection true) true).overall = false) := by
  refine ⟨rfl, rfl, rfl, rfl, ?_, ?_⟩
  · rintro ⟨h1, h2, h3⟩
    constructor
    · show decide (39 ≤ td.completed_units) = true
      rw [h1]; decide
    · show ((decide (td.year = 3) && decide (2 ≤ td.semester)) || decide (3 < td.year)) = true
      rw [h2, h3]; decide
  · intro h1
    have hh : (calculate_eligibility td nm (required_units_selection true) true).has_required_units
        = false := by
      show decide (39 ≤ td.completed_units) = false
      rw [h1]; decide
    refine ⟨hh, ?_⟩
    have hov : (calculate_eligibility td nm (required_units_selection true) true).overall
        = (nm &&
          (calculate_eligibility td nm (required_units_selection true) true).has_required_units &&
          (calculate_eligibility td nm (required_units_selection true) true).no_incompletes &&
          (calculate_eligibility td nm (required_units_selection true) true).meets_year_requirement) := rfl
    rw [hov, hh]
    simp

/-- C4 witness: the universal statement applied at two concrete transcript
summaries (45 and 30 completed units, year 4 semester 2, degree). -/
theorem C4_eligibility_degree_rules_witness :
    ((calculate_eligibility ⟨"E O".data, 45, [], 4, 2⟩ true (required_units_selection true)
        true).has_required_units = true ∧
      (calculate_eligibility ⟨"E O".data, 45, [], 4, 2⟩ true (required_units_selection true)
        true).meets_year_requirement = true) ∧
    ((calculate_eligibility ⟨"E O".data, 30, [], 4, 2⟩ true (required_units_selection true)
        true).has_required_units = false ∧
      (calculate_eligibility ⟨"E O".data, 30, [], 4, 2⟩ true (required_units_selection true)
        true).overall = false) :=
  ⟨(C4_eligibility_degree_rules ⟨"E O".data, 45, [], 4, 2⟩ true).2.2.2.2.1
      ⟨rfl, rfl, rfl⟩,
    (C4_eligibility_degree_rules ⟨"E O".data, 30, [], 4, 2⟩ true).2.2.2.2.2 rfl⟩

/-- The concrete scenario falsifying C5: three digital methods succeed with
confidence 0.05 (below the 0.1 bar); PyMuPDF would extract `AAA`,
pdfplumber `BBB`. -/
def c5pdf : PdfTexts :=
  { pymupdf_pages := some ["AAA".data], pdfplumber_pages := some ["BBB".data] }

def c5m1 : ExtractionMethod :=
  { name := "pymupdf_enhanced".data, confidence := mkRat 1 20, text_length := 3,
    success := true }

def c5m2 : ExtractionMethod :=
  { name := "pdfplumber_enhanced".data, confidence := mkRat 1 20, text_length := 3,
    success := true }

def c5m3 : ExtractionMethod :=
  { name := "pdfminer_enhanced".data, confidence := mkRat 1 20, text_length := 3,
    success := true }

/-- C5 (evaluation at the failing input): when no method clears the 0.1
confidence bar the result is indeed reported with confidence 0.1, but the
returned text is a fresh plain-PyMuPDF re-extraction (`AAA\n`), not the
concatenation of the attempted texts — the attempted pdfplumber text `BBB`
is absent — and the "combined" string the source builds (and then discards)
joins the method *names*. -/
theorem C5_fallback_returns_reextracted_text :
    (extract_digital_text_enhanced c5pdf c5m1 c5m2 c5m3).confidence = mkRat 1 10 ∧
    (extract_digital_text_enhanced c5pdf c5m1 c5m2 c5m3).primary_method = "combined".data ∧
    (extract_digital_text_enhanced c5pdf c5m1 c5m2 c5m3).text = "AAA\n".data ∧
    isSubstring "BBB".data (extract_digital_text_enhanced c5pdf c5m1 c5m2 c5m3).text = false ∧
    fallback_combined_text [c5m1, c5m2, c5m3] =
      "pymupdf_enhanced\npdfplumber_enhanced\npdfminer_enhanced".data := by
  exact ⟨by decide, by decide, by decide, by decide, by decide⟩

/-- C6 (counterexample): on empty text no year marker matches, so the year
stays at its initial value 0 — outside the claimed range `1 ≤ year ≤ 6`
(the semester defaults to 2). -/
theorem C6_empty_text_year_zero_counterexample :
    extract_academic_period [] = (0, 2) ∧ ¬(1 ≤ (extract_academic_period []).1) :=
  ⟨by decide, by decide⟩

/-- C8: when the document cannot be opened (any exception), the analyzer
returns the pessimistic profile — `is_scanned = true`, `confidence = 0.5`,
recommending the OCR strategy — instead of raising. -/
theorem C8_analyze_document_error_pessimistic (e : Str) :
    (analyze_document (.error e)).is_scanned = true ∧
    (analyze_document (.error e)).is_digital = false ∧
    (analyze_document (.error e)).confidence = mkRat 1 2 ∧
    (analyze_document (.error e)).recommended_method = "advanced_ocr".data :=
  ⟨rfl, rfl, rfl, rfl⟩

/-! ## C6 (amended): bounds of the extracted academic period -/

theorem yearFold_le6 (text : Str) (l : List RE) (y : Nat) (hy : y ≤ 6) :
    l.foldl (yearStep text) y ≤ 6 := by
  induction l generalizing y with
  | nil => simpa using hy
  | cons p ps ih =>
    apply ih
    unfold yearStep
    cases reSearch p text with
    | none => simpa using hy
    | some r =>
      dsimp only
      split
      · rename_i h
        omega
      · exact hy

theorem semFold_bounds (text : Str) (l : List RE) (s : Nat) (h1 : 1 ≤ s) (h2 : s ≤ 2) :
    1 ≤ l.foldl (semStep text) s ∧ l.foldl (semStep text) s ≤ 2 := by
  induction l generalizing s with
  | nil => exact ⟨h1, h2⟩
  | cons p ps ih =>
    apply ih
    all_goals
      unfold semStep
      cases reSearch p text with
      | none => simpa
      | some r =>
        dsimp only
        split
        · rename_i h
          omega
        · omega

/-- C6 (amended): for every input text the extracted period satisfies
`year ≤ 6` and `1 ≤ semester ≤ 2`; the year is not clamped up to 1 and is 0
when no marker is found. -/
theorem C6_period_bounds_amended (t : Str) :
    (extract_academic_period t).1 ≤ 6 ∧
    1 ≤ (extract_academic_period t).2 ∧ (extract_academic_period t).2 ≤ 2 := by
  have hy := yearFold_le6 t yearPatterns 0 (by omega)
  have hs := semFold_bounds t semPatterns 2 (by omega) (by omega)
  unfold extract_academic_period
  dsimp only
  refine ⟨?_, hs.1, hs.2⟩
  cases latestTermEntry (reFindall termRe 2 t) with
  | none => exact hy
  | some e =>
    dsimp only
    have hle : (min 6 (max 1 (2025 - (2000 + (pyInt (e.getD 1 []) : Int)) + 4))).toNat ≤ 6 := by
      rw [Int.toNat_le]
      exact min_le_left _ _
    exact Nat.max_le.mpr ⟨hy, hle⟩

/-! ## C3 (amended): the `found_courses` set deduplicates the fallback
paths.  Invariant carried through all the loops of `_extract_units`: every
accumulated unit's normalized code is in `found_courses`, and any unit of
confidence below 0.9 (the fallback-produced ones) has a code different from
every earlier unit's. -/

def GoodUnits (st : List CleanedUnit × List Str) : Prop :=
  (∀ u ∈ st.1, normUnitCode u.code ∈ st.2) ∧
  ∀ i j (hi : i < st.1.length) (hj : j < st.1.length), i < j →
    (st.1.get ⟨j, hj⟩).confidence < mkRat 9 10 →
    normUnitCode ((st.1.get ⟨i, hi⟩).code) ≠ normUnitCode ((st.1.get ⟨j, hj⟩).code)

theorem goodUnits_append (st : List CleanedUnit × List Str) (u : CleanedUnit)
    (hcase : ¬(u.confidence < mkRat 9 10) ∨ normUnitCode u.code ∉ st.2)
    (h : GoodUnits st) :
    GoodUnits (st.1 ++ [u], st.2 ++ [normUnitCode u.code]) := by
  obtain ⟨h1, h2⟩ := h
  constructor
  · intro v hv
    rcases List.mem_append.mp hv with hv | hv
    · exact List.mem_append.mpr (Or.inl (h1 v hv))
    · rw [List.mem_singleton] at hv
      subst hv
      exact List.mem_append.mpr (Or.inr (List.mem_singleton.mpr rfl))
  · intro i j hi hj hij hconfj
    simp only [List.length_append, List.length_singleton] at hi hj
    simp only [List.get_eq_getElem] at hconfj ⊢
    by_cases hjlt : j < st.1.length
    · have hilt : i < st.1.length := by omega
      rw [List.getElem_append_left hilt, List.getElem_append_left hjlt] at *
      have := h2 i j hilt hjlt hij
      simp only [List.get_eq_getElem] at this
      exact this hconfj
    · have hjeq : j = st.1.length := by omega
      subst hjeq
      have hilt : i < st.1.length := by omega
      simp only [List.getElem_concat_length] at hconfj
      rw [List.getElem_append_left hilt]
      simp only [List.getElem_concat_length]
      rcases hcase with hconf | hnot
      · exact absurd hconfj hconf
      · intro hcontra
        apply hnot
        rw [← hcontra]
        apply h1
        exact List.getElem_mem _

theorem foldl_preserves {α β : Type} (P : β → Prop) (f : β → α → β)
    (hf : ∀ st a, P st → P (f st a)) :
    ∀ (l : List α) (st : β), P st → P (l.foldl f st) := by
  intro l
  induction l with
  | nil => intro st h; exact h
  | cons a as ih => intro st h; exact ih _ (hf st a h)

theorem parse_unit_fields_conf {m0 m1 mg : Str} {u : CleanedUnit}
    (h : parse_unit_fields m0 m1 mg = some u) : u.confidence = mkRat 9 10 := by
  unfold parse_unit_fields at h
  cases hc : extract_course_code m0 with
  | none =>
    rw [hc] at h
    dsimp only at h
    split at h
    · exact absurd h (by simp)
    · injection h with h2
      rw [← h2]
  | some c =>
    rw [hc] at h
    dsimp only at h
    split at h
    · exact absurd h (by simp)
    · injection h with h2
      rw [← h2]

theorem parse_unit_match_conf {m : List Str} {u : CleanedUnit}
    (h : parse_unit_match m = some u) : u.confidence = mkRat 9 10 := by
  unfold parse_unit_match at h
  split at h
  · exact parse_unit_fields_conf h
  · exact parse_unit_fields_conf h
  · exact absurd h (by simp)

theorem unitPatternStep_good (st : List CleanedUnit × List Str) (m : List Str)
    (h : GoodUnits st) : GoodUnits (unitPatternStep st m) := by
  unfold unitPatternStep
  cases hp : parse_unit_match m with
  | none => exact h
  | some u =>
    dsimp only
    split
    · exact goodUnits_append st u
        (Or.inl (by rw [parse_unit_match_conf hp]; exact lt_irrefl _)) h
    · exact h

theorem unitFallbackStep_good (st : List CleanedUnit × List Str) (m : List Str)
    (h : GoodUnits st) : GoodUnits (unitFallbackStep st m) := by
  unfold unitFallbackStep
  cases m with
  | nil => exact h
  | cons code rest =>
    cases rest with
    | cons _ _ => exact h
    | nil =>
      dsimp only
      split
      · rename_i hcond
        simp only [Bool.and_eq_true, Bool.not_eq_true'] at hcond
        have hnot : normUnitCode code ∉ st.2 := by
          intro hmem
          have hc2 : st.2.contains (normUnitCode code) = true := List.elem_iff.mpr hmem
          rw [hc2] at hcond
          exact absurd hcond.1 (by simp)
        exact goodUnits_append st (basicUnit code (mkRat 1 2)) (Or.inr hnot) h
      · exact h

theorem unitSimpleStep_good (st : List CleanedUnit × List Str) (m : List Str)
    (h : GoodUnits st) : GoodUnits (unitSimpleStep st m) := by
  unfold unitSimpleStep
  cases m with
  | nil => exact h
  | cons code rest =>
    cases rest with
    | cons _ _ => exact h
    | nil =>
      dsimp only
      split
      · rename_i hcond
        simp only [Bool.not_eq_true'] at hcond
        have hnot : normUnitCode code ∉ st.2 := by
          intro hmem
          have hc2 : st.2.contains (normUnitCode code) = true := List.elem_iff.mpr hmem
          rw [hc2] at hcond
          exact absurd hcond (by simp)
        exact goodUnits_append st (basicUnit code (mkRat 3 10)) (Or.inr hnot) h
      · exact h

theorem processLine_good (st : List CleanedUnit × List Str) (rawLine : Str)
    (h : GoodUnits st) : GoodUnits (processLine st rawLine) := by
  unfold processLine
  dsimp only
  split
  · exact h
  · split
    · exact h
    · have h1 : GoodUnits (unitPatterns.foldl
          (fun acc p => (reFindall p.1 p.2 (pyStrip rawLine)).foldl unitPatternStep acc) st) :=
        foldl_preserves _ _
          (fun acc p hp => foldl_preserves _ unitPatternStep unitPatternStep_good _ _ hp)
          _ _ h
      split
      · exact h1
      · exact foldl_preserves _ unitFallbackStep unitFallbackStep_good _ _ h1

theorem extract_units_goodState (t : Str) :
    ∃ st : List CleanedUnit × List Str, GoodUnits st ∧ extract_units t = st.1 := by
  have hg0 : GoodUnits (([], []) : List CleanedUnit × List Str) := by
    constructor
    · intro u hu
      exact absurd hu (by simp)
    · intro i j hi hj
      exact absurd hj (by simp)
  have hg : GoodUnits ((splitOnChar '\n' t).foldl processLine ([], [])) :=
    foldl_preserves _ processLine processLine_good _ _ hg0
  unfold extract_units
  dsimp only
  split
  · exact ⟨_, foldl_preserves _ _
      (fun acc p hp => foldl_preserves _ unitSimpleStep unitSimpleStep_good _ _ hp)
      _ _ hg, rfl⟩
  · exact ⟨_, hg, rfl⟩

/-- C3 (amended): in the units list of `extract_structured_data`, every
unit produced by the fallback paths (confidence below 0.9) has a normalized
course code different from that of every unit preceding it; pattern-path
units (confidence 0.9) are exempt from deduplication. -/
theorem goodList_pairwise {L : List CleanedUnit}
    (h : ∃ st : List CleanedUnit × List Str, GoodUnits st ∧ L = st.1)
    (i j : Nat) (hi : i < L.length) (hj : j < L.length) (hij : i < j)
    (hconf : (L.get ⟨j, hj⟩).confidence < mkRat 9 10) :
    normUnitCode ((L.get ⟨i, hi⟩).code) ≠ normUnitCode ((L.get ⟨j, hj⟩).code) := by
  obtain ⟨st, hgood, rfl⟩ := h
  exact hgood.2 i j hi hj hij hconf

theorem C3_fallback_dedup_amended (text : Str) (i j : Nat)
    (hi : i < (extract_structured_units text).length)
    (hj : j < (extract_structured_units text).length)
    (hij : i < j)
    (hconf : ((extract_structured_units text).get ⟨j, hj⟩).confidence < mkRat 9 10) :
    normUnitCode (((extract_structured_units text).get ⟨i, hi⟩).code) ≠
      normUnitCode (((extract_structured_units text).get ⟨j, hj⟩).code) :=
  goodList_pairwise (extract_units_goodState (clean_text text)) i j hi hj hij hconf

/-- C3 amended witness: on `AB234 CD567` both units come from the fallback
path (confidence 0.5 < 0.9) and indeed carry distinct normalized codes. -/
theorem C3_fallback_dedup_amended_witness :
    ((0 : Nat) < 1 ∧
      ((extract_structured_units "AB234 CD567".data).get ⟨1, by decide⟩).confidence
        < mkRat 9 10) ∧
    normUnitCode (((extract_structured_units "AB234 CD567".data).get ⟨0, by decide⟩).code) ≠
      normUnitCode (((extract_structured_units "AB234 CD567".data).get ⟨1, by decide⟩).code) :=
  ⟨⟨by decide, by decide⟩,
    C3_fallback_dedup_amended "AB234 CD567".data 0 1 (by decide) (by decide)
      (by decide) (by decide)⟩

/-! ## C2: characters of the cleaned text
The `0→O` and `1→I` substitutions remove every `'0'`/`'1'`; none of the
later pipeline stages can reintroduce them, and every extracted student id
or course code is built from (uppercased) characters of the cleaned text. -/

theorem mem_pyReplaceAux {pat rep : Str} :
    ∀ (fuel : Nat) (s : Str) (c : Char), c ∈ pyReplaceAux pat rep fuel s →
      c ∈ s ∨ c ∈ rep := by
  intro fuel
  induction fuel with
  | zero => intro s c h; exact Or.inl h
  | succ n ih =>
    intro s c h
    unfold pyReplaceAux at h
    cases s with
    | nil => exact absurd h (by simp)
    | cons d rest =>
      dsimp only at h
      by_cases hp : pat.isEmpty
      · rw [if_pos hp] at h
        exact Or.inl h
      · rw [if_neg hp] at h
        by_cases hpre : isPrefixL pat (d :: rest) = true
        · rw [if_pos hpre] at h
          rcases List.mem_append.mp h with h | h
          · exact Or.inr h
          · rcases ih _ _ h with h | h
            · exact Or.inl (List.mem_cons_of_mem _ (List.drop_subset _ _ h))
            · exact Or.inr h
        · rw [if_neg hpre] at h
          rcases List.mem_cons.mp h with h | h
          · exact Or.inl (by simp [h])
          · rcases ih _ _ h with h | h
            · exact Or.inl (List.mem_cons_of_mem _ h)
            · exact Or.inr h

theorem pyReplace_single_removes {x y : Char} (hxy : y ≠ x) :
    ∀ (fuel : Nat) (s : Str), s.length ≤ fuel → x ∉ pyReplaceAux [x] [y] fuel s := by
  intro fuel
  induction fuel with
  | zero =>
    intro s hs
    have : s = [] := List.eq_nil_of_length_eq_zero (by omega)
    subst this
    simp [pyReplaceAux]
  | succ n ih =>
    intro s hs
    unfold pyReplaceAux
    cases s with
    | nil => simp
    | cons d rest =>
      dsimp only
      rw [if_neg (by simp)]
      by_cases hpre : isPrefixL [x] (d :: rest) = true
      · rw [if_pos hpre]
        intro hmem
        rcases List.mem_append.mp hmem with h | h
        · rw [List.mem_singleton] at h
          exact hxy h.symm
        · have hrest : (rest.drop ([x].length - 1)).length ≤ n := by
            simp only [List.length_singleton]
            have := List.length_drop 0 rest
            simp only [List.length_cons] at hs
            simp
            omega
          exact ih _ hrest h
      · rw [if_neg hpre]
        intro hmem
        rcases List.mem_cons.mp hmem with h | h
        · subst h
          exact absurd (by simp [isPrefixL]) hpre
        · have hrest : rest.length ≤ n := by
            simp only [List.length_cons] at hs
            omega
          exact ih rest hrest h

theorem mem_of_mem_dropWhile {p : Char → Bool} :
    ∀ {s : Str} {c : Char}, c ∈ s.dropWhile p → c ∈ s := by
  intro s
  induction s with
  | nil => intro c h; exact h
  | cons d rest ih =>
    intro c h
    rw [List.dropWhile_cons] at h
    split at h
    · exact List.mem_cons_of_mem _ (ih h)
    · exact h

theorem mem_collapseWsAux :
    ∀ (fuel : Nat) (s : Str) (c : Char), c ∈ collapseWsAux fuel s → c = ' ' ∨ c ∈ s := by
  intro fuel
  induction fuel with
  | zero => intro s c h; exact Or.inr h
  | succ n ih =>
    intro s c h
    unfold collapseWsAux at h
    cases s with
    | nil => exact absurd h (by simp)
    | cons d rest =>
      dsimp only at h
      split at h
      · rcases List.mem_cons.mp h with h | h
        · exact Or.inl h
        · rcases ih _ _ h with h | h
          · exact Or.inl h
          · exact Or.inr (List.mem_cons_of_mem _ (mem_of_mem_dropWhile h))
      · rcases List.mem_cons.mp h with h | h
        · exact Or.inr (by simp [h])
        · rcases ih _ _ h with h | h
          · exact Or.inl h
          · exact Or.inr (List.mem_cons_of_mem _ h)

theorem mem_pyStrip {s : Str} {c : Char} (h : c ∈ pyStrip s) : c ∈ s := by
  unfold pyStrip at h
  rw [List.mem_reverse] at h
  have h1 := mem_of_mem_dropWhile h
  rw [List.mem_reverse] at h1
  exact mem_of_mem_dropWhile h1

/-- The heart of C2: the cleaned text never contains `'0'` or `'1'`. -/
theorem clean_text_no_zero_one (t : Str) :
    '0' ∉ clean_text t ∧ '1' ∉ clean_text t := by
  unfold clean_text
  split
  · simp
  · set s2 := pyReplace ['c', 'l'] ['d'] (pyReplace ['r', 'n'] ['m'] t) with hs2
    set s3 := pyReplace ['0'] ['O'] s2 with hs3
    set s4 := pyReplace ['1'] ['I'] s3 with hs4
    set s5 := pyReplace ['v', 'v'] ['w'] s4 with hs5
    set s6 := pyReplace ['i', 'i'] ['n'] s5 with hs6
    have h3 : '0' ∉ s3 := pyReplace_single_removes (by decide) _ _ (le_refl _)
    have h4 : '0' ∉ s4 ∧ '1' ∉ s4 := by
      constructor
      · intro hm
        rcases mem_pyReplaceAux _ _ _ hm with hm | hm
        · exact h3 hm
        · exact absurd hm (by decide)
      · exact pyReplace_single_removes (by decide) _ _ (le_refl _)
    have h5 : '0' ∉ s5 ∧ '1' ∉ s5 := by
      constructor <;> intro hm <;> rcases mem_pyReplaceAux _ _ _ hm with hm | hm
      · exact h4.1 hm
      · exact absurd hm (by decide)
      · exact h4.2 hm
      · exact absurd hm (by decide)
    have h6 : '0' ∉ s6 ∧ '1' ∉ s6 := by
      constructor <;> intro hm <;> rcases mem_pyReplaceAux _ _ _ hm with hm | hm
      · exact h5.1 hm
      · exact absurd hm (by decide)
      · exact h5.2 hm
      · exact absurd hm (by decide)
    constructor <;> intro hm <;> have hm2 := mem_pyStrip hm
    · rcases mem_collapseWsAux _ _ _ hm2 with hm3 | hm3
      · exact absurd hm3 (by decide)
      · exact h6.1 hm3
    · rcases mem_collapseWsAux _ _ _ hm2 with hm3 | hm3
      · exact absurd hm3 (by decide)
      · exact h6.2 hm3

/-- Every character a match consumes, leaves over, or captures is a
character of the input string. -/
theorem mrun_subset :
    ∀ (fuel : Nat) (re : RE) (prev : Option Char) (s : Str) (r : Str × Str × Caps),
      r ∈ mrun fuel re prev s →
      (∀ c ∈ r.1, c ∈ s) ∧ (∀ c ∈ r.2.1, c ∈ s) ∧ (∀ g ∈ r.2.2, ∀ c ∈ g.2, c ∈ s) := by
  intro fuel
  induction fuel with
  | zero =>
    intro re prev s r hr
    exact absurd hr (by simp [mrun])
  | succ n ih =>
    intro re prev s r hr
    unfold mrun at hr
    cases re with
    | eps =>
      rw [List.mem_singleton] at hr
      subst hr
      exact ⟨by simp, fun c hc => hc, by simp⟩
    | cls p =>
      cases s with
      | nil => exact absurd hr (by simp)
      | cons d rest =>
        dsimp only at hr
        split at hr
        · rw [List.mem_singleton] at hr
          subst hr
          refine ⟨?_, ?_, by simp⟩
          · intro c hc
            rw [List.mem_singleton] at hc
            simp [hc]
          · intro c hc
            exact List.mem_cons_of_mem _ hc
        · exact absurd hr (by simp)
    | seq a b =>
      rw [List.mem_flatMap] at hr
      obtain ⟨ra, hra, hr⟩ := hr
      rw [List.mem_map] at hr
      obtain ⟨rb, hrb, hr⟩ := hr
      subst hr
      obtain ⟨ha1, ha2, ha3⟩ := ih a prev s ra hra
      obtain ⟨hb1, hb2, hb3⟩ := ih b (lastChar prev ra.1) ra.2.1 rb hrb
      refine ⟨?_, ?_, ?_⟩
      · intro c hc
        rcases List.mem_append.mp hc with hc | hc
        · exact ha1 c hc
        · exact ha2 c (hb1 c hc)
      · intro c hc
        exact ha2 c (hb2 c hc)
      · intro g hg
        rcases List.mem_append.mp hg with hg | hg
        · exact ha3 g hg
        · intro c hc
          exact ha2 c (hb3 g hg c hc)
    | alt a b =>
      rcases List.mem_append.mp hr with hr | hr
      · exact ih a prev s r hr
      · exact ih b prev s r hr
    | star a =>
      rcases List.mem_append.mp hr with hr | hr
      · rw [List.mem_flatMap] at hr
        obtain ⟨ra, hra, hr⟩ := hr
        split at hr
        · exact absurd hr (by simp)
        · rw [List.mem_map] at hr
          obtain ⟨rb, hrb, hr⟩ := hr
          subst hr
          obtain ⟨ha1, ha2, ha3⟩ := ih a prev s ra hra
          obtain ⟨hb1, hb2, hb3⟩ := ih (.star a) (lastChar prev ra.1) ra.2.1 rb hrb
          refine ⟨?_, ?_, ?_⟩
          · intro c hc
            rcases List.mem_append.mp hc with hc | hc
            · exact ha1 c hc
            · exact ha2 c (hb1 c hc)
          · intro c hc
            exact ha2 c (hb2 c hc)
          · intro g hg
            rcases List.mem_append.mp hg with hg | hg
            · exact ha3 g hg
            · intro c hc
              exact ha2 c (hb3 g hg c hc)
      · rw [List.mem_singleton] at hr
        subst hr
        exact ⟨by simp, fun c hc => hc, by simp⟩
    | group i a =>
      rw [List.mem_map] at hr
      obtain ⟨ra, hra, hr⟩ := hr
      subst hr
      obtain ⟨ha1, ha2, ha3⟩ := ih a prev s ra hra
      refine ⟨ha1, ha2, ?_⟩
      · intro g hg
        rcases List.mem_cons.mp hg with hg | hg
        · subst hg
          exact ha1
        · exact ha3 g hg
    | wordB =>
      dsimp only at hr
      split at hr
      · rw [List.mem_singleton] at hr
        subst hr
        exact ⟨by simp, fun c hc => hc, by simp⟩
      · exact absurd hr (by simp)

theorem capsGet_subset {caps : Caps} {t : Str}
    (h : ∀ g ∈ caps, ∀ c ∈ g.2, c ∈ t) (i : Nat) :
    ∀ c ∈ capsGet caps i, c ∈ t := by
  unfold capsGet
  cases hf : caps.reverse.find? (fun p => p.1 == i) with
  | none => simp
  | some p =>
    intro c hc
    have hmem : p ∈ caps.reverse := List.mem_of_find?_eq_some hf
    rw [List.mem_reverse] at hmem
    exact h p hmem c hc

theorem capsTuple_subset {consumed : Str} {caps : Caps} {t : Str} {ng : Nat}
    (hc : ∀ c ∈ consumed, c ∈ t) (hcaps : ∀ g ∈ caps, ∀ c ∈ g.2, c ∈ t) :
    ∀ g ∈ capsTuple consumed caps ng, ∀ c ∈ g, c ∈ t := by
  unfold capsTuple
  split
  · intro g hg
    rw [List.mem_singleton] at hg
    subst hg
    exact hc
  · intro g hg
    rw [List.mem_map] at hg
    obtain ⟨k, _, hg⟩ := hg
    subst hg
    exact capsGet_subset hcaps _

theorem firstMatch_eq_some {l : List (Str × Str × Caps)} {r : Str × Caps}
    (h : firstMatch l = some r) : ∃ r0 ∈ l, r = (r0.1, r0.2.2) := by
  cases l with
  | nil => exact absurd h (by simp [firstMatch])
  | cons r0 rest =>
    refine ⟨r0, List.mem_cons_self _ _, ?_⟩
    unfold firstMatch at h
    injection h with h
    exact h.symm

theorem reSearchAux_subset {fuel : Nat} {re : RE} :
    ∀ (s : Str) (prev : Option Char) (r : Str × Caps),
      reSearchAux fuel re prev s = some r →
      (∀ c ∈ r.1, c ∈ s) ∧ (∀ g ∈ r.2, ∀ c ∈ g.2, c ∈ s) := by
  intro s
  induction s with
  | nil =>
    intro prev r h
    unfold reSearchAux at h
    obtain ⟨r0, hr0, rfl⟩ := firstMatch_eq_some h
    have hs := mrun_subset fuel re prev [] r0 hr0
    exact ⟨hs.1, hs.2.2⟩
  | cons d rest ih =>
    intro prev r h
    unfold reSearchAux at h
    cases hm : firstMatch (mrun fuel re prev (d :: rest)) with
    | some r1 =>
      rw [hm] at h
      dsimp only at h
      injection h with h
      subst h
      obtain ⟨r0, hr0, rfl⟩ := firstMatch_eq_some hm
      have hs := mrun_subset fuel re prev (d :: rest) r0 hr0
      exact ⟨hs.1, hs.2.2⟩
    | none =>
      rw [hm] at h
      dsimp only at h
      have hs := ih (some d) r h
      exact ⟨fun c hc => List.mem_cons_of_mem _ (hs.1 c hc),
        fun g hg c hc => List.mem_cons_of_mem _ (hs.2 g hg c hc)⟩

theorem reSearch_subset {re : RE} {s : Str} {r : Str × Caps}
    (h : reSearch re s = some r) :
    (∀ c ∈ r.1, c ∈ s) ∧ (∀ g ∈ r.2, ∀ c ∈ g.2, c ∈ s) :=
  reSearchAux_subset s none r h

theorem reFindallAux_subset {fuel : Nat} {re : RE} {ng : Nat} :
    ∀ (steps : Nat) (prev : Option Char) (s : Str) (tup : List Str),
      tup ∈ reFindallAux fuel re ng steps prev s → ∀ g ∈ tup, ∀ c ∈ g, c ∈ s := by
  intro steps
  induction steps with
  | zero =>
    intro prev s tup h
    exact absurd h (by simp [reFindallAux])
  | succ n ih =>
    intro prev s tup h
    cases s with
    | nil =>
      unfold reFindallAux at h
      cases hm : mrun fuel re prev [] with
      | nil =>
        rw [hm] at h
        exact absurd h (by simp)
      | cons r0 rest0 =>
        rw [hm] at h
        dsimp only at h
        rw [List.mem_singleton] at h
        subst h
        have hsub := mrun_subset fuel re prev [] r0 (by rw [hm]; exact List.mem_cons_self _ _)
        exact capsTuple_subset hsub.1 hsub.2.2
    | cons d rest =>
      unfold reFindallAux at h
      cases hm : mrun fuel re prev (d :: rest) with
      | nil =>
        rw [hm] at h
        dsimp only at h
        intro g hg c hc
        exact List.mem_cons_of_mem _ (ih _ _ _ h g hg c hc)
      | cons r0 rest0 =>
        rw [hm] at h
        dsimp only at h
        have hsub := mrun_subset fuel re prev (d :: rest) r0
          (by rw [hm]; exact List.mem_cons_self _ _)
        split at h
        · rcases List.mem_cons.mp h with h | h
          · subst h
            exact capsTuple_subset hsub.1 hsub.2.2
          · intro g hg c hc
            exact List.mem_cons_of_mem _ (ih _ _ _ h g hg c hc)
        · rcases List.mem_cons.mp h with h | h
          · subst h
            exact capsTuple_subset hsub.1 hsub.2.2
          · intro g hg c hc
            exact hsub.2.1 c (ih _ _ _ h g hg c hc)

theorem reFindall_subset {re : RE} {ng : Nat} {s : Str} {tup : List Str}
    (h : tup ∈ reFindall re ng s) : ∀ g ∈ tup, ∀ c ∈ g, c ∈ s :=
  reFindallAux_subset _ _ _ _ h

/-- A string avoiding the two repaired digits. -/
def Avoid01 (s : Str) : Prop := ∀ c ∈ s, c ≠ '0' ∧ c ≠ '1'

theorem pyUpper_avoid01 {X : Str} (h : Avoid01 X) : Avoid01 (pyUpper X) := by
  intro c hc
  obtain ⟨d, hd, rfl⟩ := List.mem_map.mp hc
  have hd2 := h d hd
  constructor
  · intro he
    exact hd2.1 (toUpperChar_low_fixed (by decide) he)
  · intro he
    exact hd2.2 (toUpperChar_low_fixed (by decide) he)

theorem findSome?_mem {α β : Type} {f : α → Option β} :
    ∀ {l : List α} {b : β}, l.findSome? f = some b → ∃ a ∈ l, f a = some b := by
  intro l
  induction l with
  | nil => intro b h; exact absurd h (by simp)
  | cons a as ih =>
    intro b h
    rw [List.findSome?_cons] at h
    cases hf : f a with
    | some b0 =>
      rw [hf] at h
      exact ⟨a, List.mem_cons_self _ _, by rw [hf]; exact h⟩
    | none =>
      rw [hf] at h
      obtain ⟨a1, ha1, hfa⟩ := ih h
      exact ⟨a1, List.mem_cons_of_mem _ ha1, hfa⟩

theorem extract_student_id_avoid01 {t : Str} (h : Avoid01 t) :
    Avoid01 (extract_student_id t) := by
  unfold extract_student_id
  cases hf : studentIdPatterns.findSome?
      (fun p => (reSearch p t).map (fun r => pyUpper (capsGet r.2 1))) with
  | none => intro c hc; exact absurd hc (by simp)
  | some sid =>
    dsimp only
    obtain ⟨p, _, hps⟩ := findSome?_mem hf
    cases hs : reSearch p t with
    | none => rw [hs] at hps; exact absurd hps (by simp)
    | some r =>
      rw [hs] at hps
      dsimp only [Option.map] at hps
      injection hps with hps
      rw [← hps]
      apply pyUpper_avoid01
      intro c hc
      exact h c (capsGet_subset (reSearch_subset hs).2 1 c hc)

theorem extract_course_code_avoid01 {m0 : Str} (h : Avoid01 m0)
    {code : Str} (hc : extract_course_code m0 = some code) : Avoid01 code := by
  unfold extract_course_code at hc
  cases hs : reSearch courseCodeTwoGroupRe (pyUpper m0) with
  | none => rw [hs] at hc; exact absurd hc (by simp)
  | some r =>
    rw [hs] at hc
    dsimp only at hc
    injection hc with hc
    rw [← hc]
    intro c hcm
    have hup := pyUpper_avoid01 h
    rcases List.mem_append.mp hcm with hm | hm
    · exact hup c (capsGet_subset (reSearch_subset hs).2 1 c hm)
    · exact hup c (capsGet_subset (reSearch_subset hs).2 2 c hm)

theorem parse_unit_fields_code_avoid01 {m0 m1 mg : Str} {u : CleanedUnit}
    (h0 : Avoid01 m0) (hu : parse_unit_fields m0 m1 mg = some u) :
    Avoid01 u.code := by
  unfold parse_unit_fields at hu
  cases hc : extract_course_code m0 with
  | none =>
    rw [hc] at hu
    dsimp only at hu
    split at hu
    · exact absurd hu (by simp)
    · injection hu with hu
      rw [← hu]
      apply pyUpper_avoid01
      intro c hcm
      exact h0 c (List.mem_of_mem_filter hcm)
  | some code =>
    rw [hc] at hu
    dsimp only at hu
    split at hu
    · exact absurd hu (by simp)
    · injection hu with hu
      rw [← hu]
      exact extract_course_code_avoid01 h0 hc

theorem parse_unit_match_code_avoid01 {m : List Str} {u : CleanedUnit}
    (hm : ∀ g ∈ m, Avoid01 g) (hu : parse_unit_match m = some u) :
    Avoid01 u.code := by
  rcases m with _ | ⟨m0, _ | ⟨m1, _ | ⟨m2, _ | ⟨m3, _ | ⟨m4, rest⟩⟩⟩⟩⟩
  · exact absurd hu (by simp [parse_unit_match])
  · exact absurd hu (by simp [parse_unit_match])
  · exact absurd hu (by simp [parse_unit_match])
  · exact parse_unit_fields_code_avoid01 (hm m0 (by simp)) hu
  · exact parse_unit_fields_code_avoid01 (hm m0 (by simp)) hu
  · exact absurd hu (by simp [parse_unit_match])

/-- The codes of all accumulated units avoid `'0'` and `'1'`. -/
def CodesAvoid (st : List CleanedUnit × List Str) : Prop :=
  ∀ u ∈ st.1, Avoid01 u.code

theorem codesAvoid_append {st : List CleanedUnit × List Str} {u : CleanedUnit}
    {n : Str} (hu : Avoid01 u.code) (h : CodesAvoid st) :
    CodesAvoid (st.1 ++ [u], st.2 ++ [n]) := by
  intro v hv
  rcases List.mem_append.mp hv with hv | hv
  · exact h v hv
  · rw [List.mem_singleton] at hv
    subst hv
    exact hu

theorem foldl_preserves_mem {α β : Type} (P : β → Prop) (Q : α → Prop) (f : β → α → β)
    (hf : ∀ st a, Q a → P st → P (f st a)) :
    ∀ (l : List α), (∀ a ∈ l, Q a) → ∀ (st : β), P st → P (l.foldl f st) := by
  intro l
  induction l with
  | nil => intro _ st h; exact h
  | cons a as ih =>
    intro hq st h
    exact ih (fun x hx => hq x (List.mem_cons_of_mem _ hx)) _
      (hf st a (hq a (List.mem_cons_self _ _)) h)

theorem unitPatternStep_codes (st : List CleanedUnit × List Str) (m : List Str)
    (hm : ∀ g ∈ m, Avoid01 g) (h : CodesAvoid st) :
    CodesAvoid (unitPatternStep st m) := by
  unfold unitPatternStep
  cases hp : parse_unit_match m with
  | none => exact h
  | some u =>
    dsimp only
    split
    · exact codesAvoid_append (parse_unit_match_code_avoid01 hm hp) h
    · exact h

theorem unitFallbackStep_codes (st : List CleanedUnit × List Str) (m : List Str)
    (hm : ∀ g ∈ m, Avoid01 g) (h : CodesAvoid st) :
    CodesAvoid (unitFallbackStep st m) := by
  unfold unitFallbackStep
  cases m with
  | nil => exact h
  | cons code rest =>
    cases rest with
    | cons _ _ => exact h
    | nil =>
      dsimp only
      split
      · exact codesAvoid_append (hm code (by simp)) h
      · exact h

theorem unitSimpleStep_codes (st : List CleanedUnit × List Str) (m : List Str)
    (hm : ∀ g ∈ m, Avoid01 g) (h : CodesAvoid st) :
    CodesAvoid (unitSimpleStep st m) := by
  unfold unitSimpleStep
  cases m with
  | nil => exact h
  | cons code rest =>
    cases rest with
    | cons _ _ => exact h
    | nil =>
      dsimp only
      split
      · exact codesAvoid_append (hm code (by simp)) h
      · exact h

theorem mem_splitOnChar {sep : Char} :
    ∀ {s : Str} {w : Str}, w ∈ splitOnChar sep s → ∀ c ∈ w, c ∈ s := by
  intro s
  induction s with
  | nil =>
    intro w hw c hc
    simp [splitOnChar] at hw
    subst hw
    exact absurd hc (by simp)
  | cons d rest ih =>
    intro w hw c hc
    unfold splitOnChar at hw
    split at hw
    · rcases List.mem_cons.mp hw with hw | hw
      · subst hw
        exact absurd hc (by simp)
      · exact List.mem_cons_of_mem _ (ih hw c hc)
    · rename_i hd
      cases hrec : splitOnChar sep rest with
      | nil =>
        rw [hrec] at hw
        rw [List.mem_singleton] at hw
        subst hw
        rw [List.mem_singleton] at hc
        simp [hc]
      | cons w0 ws =>
        rw [hrec] at hw
        rcases List.mem_cons.mp hw with hw | hw
        · subst hw
          rcases List.mem_cons.mp hc with hc | hc
          · simp [hc]
          · exact List.mem_cons_of_mem _
              (ih (by rw [hrec]; exact List.mem_cons_self _ _) c hc)
        · exact List.mem_cons_of_mem _
            (ih (by rw [hrec]; exact List.mem_cons_of_mem _ hw) c hc)

theorem mem_joinWith {sep : Str} :
    ∀ {L : List Str} {c : Char}, c ∈ joinWith sep L → c ∈ sep ∨ ∃ w ∈ L, c ∈ w := by
  intro L
  induction L with
  | nil =>
    intro c hc
    exact absurd hc (by simp [joinWith])
  | cons w ws ih =>
    intro c hc
    cases ws with
    | nil =>
      exact Or.inr ⟨w, by simp, by simpa [joinWith] using hc⟩
    | cons w1 ws1 =>
      rw [show joinWith sep (w :: w1 :: ws1) = w ++ sep ++ joinWith sep (w1 :: ws1) from rfl]
        at hc
      rcases List.mem_append.mp hc with hc | hc
      · rcases List.mem_append.mp hc with hc | hc
        · exact Or.inr ⟨w, by simp, hc⟩
        · exact Or.inl hc
      · rcases ih hc with hc | ⟨w2, hw2, hcw⟩
        · exact Or.inl hc
        · exact Or.inr ⟨w2, List.mem_cons_of_mem _ hw2, hcw⟩

theorem processLine_codes (st : List CleanedUnit × List Str) (rawLine : Str)
    (hline : Avoid01 rawLine) (h : CodesAvoid st) :
    CodesAvoid (processLine st rawLine) := by
  have hstrip : Avoid01 (pyStrip rawLine) := fun c hc => hline c (mem_pyStrip hc)
  unfold processLine
  dsimp only
  split
  · exact h
  · split
    · exact h
    · have h1 : CodesAvoid (unitPatterns.foldl
          (fun acc p => (reFindall p.1 p.2 (pyStrip rawLine)).foldl unitPatternStep acc) st) := by
        apply foldl_preserves (fun st2 => CodesAvoid st2) _ ?_ _ _ h
        intro acc p hp
        apply foldl_preserves_mem _ (fun m => ∀ g ∈ m, Avoid01 g) _ unitPatternStep_codes _ ?_ _ hp
        intro m hmem g hg c hc
        exact hstrip c (reFindall_subset hmem g hg c hc)
      split
      · exact h1
      · apply foldl_preserves_mem _ (fun m => ∀ g ∈ m, Avoid01 g) _ unitFallbackStep_codes _ ?_ _ h1
        intro m hmem g hg c hc
        exact hstrip c (reFindall_subset hmem g hg c hc)

theorem extract_units_codes_avoid01 {t : Str} (h : Avoid01 t) :
    ∀ u ∈ extract_units t, Avoid01 u.code := by
  have hlines : ∀ w ∈ splitOnChar '\n' t, Avoid01 w :=
    fun w hw c hc => h c (mem_splitOnChar hw c hc)
  have hall : Avoid01 (joinWith [' '] (splitOnChar '\n' t)) := by
    intro c hc
    rcases mem_joinWith hc with hc | ⟨w, hw, hcw⟩
    · rw [List.mem_singleton] at hc
      subst hc
      exact ⟨by decide, by decide⟩
    · exact hlines w hw c hcw
  have hg : CodesAvoid ((splitOnChar '\n' t).foldl processLine ([], [])) := by
    apply foldl_preserves_mem _ Avoid01 _ processLine_codes _ hlines _ ?_
    intro u hu
    exact absurd hu (by simp)
  unfold extract_units
  dsimp only
  split
  · refine foldl_preserves (fun st2 => CodesAvoid st2) _ ?_ _ _ hg
    intro acc p hp
    apply foldl_preserves_mem _ (fun m => ∀ g ∈ m, Avoid01 g) _ unitSimpleStep_codes _ ?_ _ hp
    intro m hmem g hgm c hc
    exact hall c (reFindall_subset hmem g hgm c hc)
  · exact hg

/-- C2: the cleaned text contains no `'0'` and no `'1'` (the OCR-repair
substitutions map them to `'O'`/`'I'` and nothing reintroduces them), and
consequently neither the extracted student id nor any extracted course code
ever contains the digit 0 or 1. -/
theorem C2_cleaned_text_no_zero_one (t : Str) :
    ('0' ∉ clean_text t ∧ '1' ∉ clean_text t) ∧
    (∀ c ∈ extract_student_id (clean_text t), c ≠ '0' ∧ c ≠ '1') ∧
    (∀ u ∈ extract_structured_units t, ∀ c ∈ u.code, c ≠ '0' ∧ c ≠ '1') := by
  have hclean := clean_text_no_zero_one t
  have havoid : Avoid01 (clean_text t) := by
    intro c hc
    constructor
    · intro he
      subst he
      exact hclean.1 hc
    · intro he
      subst he
      exact hclean.2 hc
  exact ⟨hclean, extract_student_id_avoid01 havoid,
    extract_units_codes_avoid01 havoid⟩

/-- C2 witness: on a concrete document the extracted id `234567` and the
fallback course unit `AB234` are produced and indeed contain no 0/1. -/
theorem C2_cleaned_text_no_zero_one_witness :
    ('2' ∈ extract_student_id (clean_text "Student No: 234567 AB234 CD567".data) ∧
      basicUnit "AB234".data (mkRat 1 2) ∈
        extract_structured_units "Student No: 234567 AB234 CD567".data ∧
      'A' ∈ (basicUnit "AB234".data (mkRat 1 2)).code) ∧
    ('2' ≠ '0' ∧ '2' ≠ '1') ∧ ('A' ≠ '0' ∧ 'A' ≠ '1') :=
  ⟨⟨by decide, by decide, by decide⟩,
    (C2_cleaned_text_no_zero_one "Student No: 234567 AB234 CD567".data).2.1 '2' (by decide),
    (C2_cleaned_text_no_zero_one "Student No: 234567 AB234 CD567".data).2.2
      (basicUnit "AB234".data (mkRat 1 2)) (by decide) 'A' (by decide)⟩

/-! ## C9 / C10 / C7: facts about name normalization
First, equational lemmas for the fuel-based string workers, then the
insertion-sort theory for `sortStrs`, then the split/join round trip. -/

theorem takeWhile_append_all {p : Char → Bool} {w s : Str}
    (hw : ∀ c ∈ w, p c = true) : (w ++ s).takeWhile p = w ++ s.takeWhile p := by
  induction w with
  | nil => simp
  | cons c cs ih =>
    have hc := hw c (List.mem_cons_self _ _)
    simp [List.takeWhile_cons, hc, ih (fun d hd => hw d (List.mem_cons_of_mem _ hd))]

theorem dropWhile_append_all {p : Char → Bool} {w s : Str}
    (hw : ∀ c ∈ w, p c = true) : (w ++ s).dropWhile p = s.dropWhile p := by
  induction w with
  | nil => simp
  | cons c cs ih =>
    have hc := hw c (List.mem_cons_self _ _)
    simp [List.dropWhile_cons, hc, ih (fun d hd => hw d (List.mem_cons_of_mem _ hd))]

theorem collapseWsAux_nil (fuel : Nat) : collapseWsAux fuel [] = [] := by
  cases fuel <;> rfl

theorem collapseWsAux_fuel :
    ∀ (f1 : Nat) (s : Str), s.length ≤ f1 → ∀ (f2 : Nat), s.length ≤ f2 →
      collapseWsAux f1 s = collapseWsAux f2 s := by
  intro f1
  induction f1 with
  | zero =>
    intro s hs f2 _
    have : s = [] := List.eq_nil_of_length_eq_zero (by omega)
    subst this
    rw [collapseWsAux_nil, collapseWsAux_nil]
  | succ n ih =>
    intro s hs f2 hs2
    cases s with
    | nil => rw [collapseWsAux_nil, collapseWsAux_nil]
    | cons c rest =>
      cases f2 with
      | zero => exact absurd hs2 (by simp)
      | succ m =>
        show collapseWsAux (n + 1) (c :: rest) = collapseWsAux (m + 1) (c :: rest)
        unfold collapseWsAux
        dsimp only
        simp only [List.length_cons] at hs hs2
        have hd := dropWhile_len_le isPySpace rest
        by_cases hc : isPySpace c = true
        · rw [if_pos hc, if_pos hc,
            ih (rest.dropWhile isPySpace) (by omega) m (by omega)]
        · rw [if_neg hc, if_neg hc, ih rest (by omega) m (by omega)]

theorem collapseWs_cons (c : Char) (rest : Str) :
    collapseWs (c :: rest) =
      if isPySpace c then ' ' :: collapseWs (rest.dropWhile isPySpace)
      else c :: collapseWs rest := by
  show collapseWsAux (rest.length + 1) (c :: rest) = _
  unfold collapseWsAux
  dsimp only
  have hd := dropWhile_len_le isPySpace rest
  by_cases hc : isPySpace c = true
  · rw [if_pos hc, if_pos hc,
      collapseWsAux_fuel rest.length _ (by omega) _ (le_refl _)]
    rfl
  · rw [if_neg hc, if_neg hc,
      collapseWsAux_fuel rest.length rest (le_refl _) _ (le_refl _)]
    rfl

theorem splitWsAux_nil (fuel : Nat) : splitWsAux fuel [] = [] := by
  cases fuel <;> rfl

theorem splitWsAux_fuel :
    ∀ (f1 : Nat) (s : Str), s.length ≤ f1 → ∀ (f2 : Nat), s.length ≤ f2 →
      splitWsAux f1 s = splitWsAux f2 s := by
  intro f1
  induction f1 with
  | zero =>
    intro s hs f2 _
    have : s = [] := List.eq_nil_of_length_eq_zero (by omega)
    subst this
    rw [splitWsAux_nil, splitWsAux_nil]
  | succ n ih =>
    intro s hs f2 hs2
    cases s with
    | nil => rw [splitWsAux_nil, splitWsAux_nil]
    | cons c rest =>
      cases f2 with
      | zero => exact absurd hs2 (by simp)
      | succ m =>
        show splitWsAux (n + 1) (c :: rest) = splitWsAux (m + 1) (c :: rest)
        unfold splitWsAux
        dsimp only
        simp only [List.length_cons] at hs hs2
        have hd := dropWhile_len_le (fun d => !isPySpace d) rest
        by_cases hc : isPySpace c = true
        · rw [if_pos hc, if_pos hc, ih rest (by omega) m (by omega)]
        · rw [if_neg hc, if_neg hc,
            ih (rest.dropWhile (fun d => !isPySpace d)) (by omega) m (by omega)]

theorem splitWs_cons (c : Char) (rest : Str) :
    splitWs (c :: rest) =
      if isPySpace c then splitWs rest
      else (c :: rest.takeWhile (fun d => !isPySpace d)) ::
        splitWs (rest.dropWhile (fun d => !isPySpace d)) := by
  show splitWsAux (rest.length + 1) (c :: rest) = _
  unfold splitWsAux
  dsimp only
  have hd := dropWhile_len_le (fun d => !isPySpace d) rest
  by_cases hc : isPySpace c = true
  · rw [if_pos hc, if_pos hc, splitWsAux_fuel rest.length rest (le_refl _) _ (le_refl _)]
    rfl
  · rw [if_neg hc, if_neg hc,
      splitWsAux_fuel rest.length _ (by omega) _ (le_refl _)]
    rfl

theorem isPySpace_cases {c : Char} (h : isPySpace c = true) :
    c = ' ' ∨ c = '\t' ∨ c = '\n' ∨ c = '\r' ∨ c = '\x0b' ∨ c = '\x0c' := by
  have h2 := h
  simp only [isPySpace, Bool.or_eq_true, beq_iff_eq] at h2
  tauto

theorem lower_not_space {c : Char} (h : isAsciiLower c = true) : isPySpace c = false := by
  by_contra hs
  rw [Bool.not_eq_false] at hs
  rw [isAsciiLower_iff] at h
  rcases isPySpace_cases hs with rfl | rfl | rfl | rfl | rfl | rfl <;> simp_all

theorem lower_alpha {c : Char} (h : isAsciiLower c = true) : isAsciiAlpha c = true := by
  simp [isAsciiAlpha, h]

theorem lower_not_upper {c : Char} (h : isAsciiLower c = true) : isAsciiUpper c = false := by
  rw [isAsciiLower_iff] at h
  simp only [isAsciiUpper, Bool.and_eq_false_iff, decide_eq_false_iff_not]
  right
  omega

theorem toLowerChar_lower {c : Char} (h : isAsciiAlpha c = true) :
    isAsciiLower (toLowerChar c) = true := by
  have ht := toLowerChar_toNat c
  rw [isAsciiLower_iff]
  by_cases hu : isAsciiUpper c = true
  · rw [if_pos hu] at ht
    rw [isAsciiUpper_iff] at hu
    omega
  · rw [if_neg hu] at ht
    simp only [isAsciiAlpha, Bool.or_eq_true] at h
    rcases h with h | h
    · exact absurd h hu
    · rw [isAsciiLower_iff] at h
      omega

theorem toLowerChar_fix {c : Char} (h : isAsciiUpper c = false) : toLowerChar c = c := by
  unfold toLowerChar
  rw [if_neg (by simp [h])]

/-! ### Totality of the lexicographic order and the insertion sort -/

theorem lexLe_total : ∀ (a b : Str), lexLe a b = true ∨ lexLe b a = true := by
  intro a
  induction a with
  | nil => intro b; left; rfl
  | cons x xs ih =>
    intro b
    cases b with
    | nil => right; rfl
    | cons y ys =>
      by_cases hxy : x.toNat < y.toNat
      · left
        simp [lexLe, hxy]
      · by_cases hyx : y.toNat < x.toNat
        · right
          simp [lexLe, hyx]
        · have hxy2 : x = y := char_eq_of_toNat (by omega)
          subst hxy2
          rcases ih ys with h | h
          · left
            simp [lexLe, h]
          · right
            simp [lexLe, h]

theorem lexLe_trans : ∀ {a b c : Str}, lexLe a b = true → lexLe b c = true →
    lexLe a c = true := by
  intro a
  induction a with
  | nil => intro b c _ _; rfl
  | cons x xs ih =>
    intro b c hab hbc
    cases b with
    | nil => exact absurd hab (by simp [lexLe])
    | cons y ys =>
      cases c with
      | nil => exact absurd hbc (by simp [lexLe])
      | cons z zs =>
        simp only [lexLe, Bool.or_eq_true, Bool.and_eq_true, beq_iff_eq] at hab hbc ⊢
        rcases hab with hab | ⟨rfl, hab⟩
        · rcases hbc with hbc | ⟨rfl, _⟩
          · left
            rcases hab with hab; rcases hbc with hbc
            exact decide_eq_true (by
              have h1 := of_decide_eq_true hab
              have h2 := of_decide_eq_true hbc
              omega)
          · left
            exact hab
        · rcases hbc with hbc | ⟨rfl, hbc⟩
          · left
            exact hbc
          · right
            exact ⟨rfl, ih hab hbc⟩

/-- Sortedness: adjacent elements are `lexLe`-related. -/
def SortedLex (l : List Str) : Prop := List.Chain' (fun a b => lexLe a b = true) l

theorem chain_le_mem : ∀ {a : Str} {l : List Str},
    List.Chain' (fun p q => lexLe p q = true) (a :: l) → ∀ b ∈ l, lexLe a b = true := by
  intro a l
  induction l generalizing a with
  | nil => intro _ b hb; exact absurd hb (by simp)
  | cons c cs ih =>
    intro h b hb
    have h1 := (List.chain'_cons.mp h).1
    rcases List.mem_cons.mp hb with rfl | hb
    · exact h1
    · exact lexLe_trans h1 (ih (List.chain'_cons.mp h).2 b hb)

theorem mem_insertSorted {w y : Str} :
    ∀ {l : List Str}, y ∈ insertSorted w l → y = w ∨ y ∈ l := by
  intro l
  induction l with
  | nil =>
    intro h
    unfold insertSorted at h
    rw [List.mem_singleton] at h
    exact Or.inl h
  | cons x xs ih =>
    intro h
    unfold insertSorted at h
    split at h
    · rcases List.mem_cons.mp h with h | h
      · exact Or.inl h
      · exact Or.inr h
    · rcases List.mem_cons.mp h with h | h
      · exact Or.inr (by simp [h])
      · rcases ih h with h | h
        · exact Or.inl h
        · exact Or.inr (List.mem_cons_of_mem _ h)

theorem mem_sortStrs {y : Str} :
    ∀ {l : List Str}, y ∈ sortStrs l → y ∈ l := by
  intro l
  induction l with
  | nil => intro h; exact h
  | cons x xs ih =>
    intro h
    rcases mem_insertSorted h with h | h
    · simp [h]
    · exact List.mem_cons_of_mem _ (ih h)

theorem insertSorted_sorted {w : Str} :
    ∀ {l : List Str}, SortedLex l → SortedLex (insertSorted w l) := by
  intro l
  induction l with
  | nil => intro _; exact List.chain'_singleton _
  | cons x xs ih =>
    intro h
    unfold insertSorted
    split
    · rename_i hle
      exact List.Chain'.cons hle h
    · rename_i hle
      have hxw : lexLe x w = true := by
        rcases lexLe_total w x with h2 | h2
        · exact absurd h2 hle
        · exact h2
      have htail : SortedLex (insertSorted w xs) := ih (List.Chain'.tail h)
      cases hxs : insertSorted w xs with
      | nil => exact List.chain'_singleton _
      | cons z zs =>
        refine List.Chain'.cons ?_ (hxs ▸ htail)
        have hz : z = w ∨ z ∈ xs := mem_insertSorted (by rw [hxs]; exact List.mem_cons_self _ _)
        rcases hz with rfl | hz
        · exact hxw
        · exact chain_le_mem h z hz

theorem sortStrs_sorted : ∀ (l : List Str), SortedLex (sortStrs l) := by
  intro l
  induction l with
  | nil => exact List.chain'_nil
  | cons x xs ih => exact insertSorted_sorted ih

theorem sortStrs_of_sorted : ∀ {l : List Str}, SortedLex l → sortStrs l = l := by
  intro l
  induction l with
  | nil => intro _; rfl
  | cons x xs ih =>
    intro h
    show insertSorted x (sortStrs xs) = x :: xs
    rw [ih (List.Chain'.tail h)]
    cases xs with
    | nil => rfl
    | cons y ys =>
      unfold insertSorted
      rw [if_pos (List.chain'_cons.mp h).1]

/-! ### Words produced by whitespace splitting -/

theorem mem_takeWhile {p : Char → Bool} :
    ∀ {l : Str} {c : Char}, c ∈ l.takeWhile p → p c = true ∧ c ∈ l := by
  intro l
  induction l with
  | nil => intro c h; exact absurd h (by simp)
  | cons d rest ih =>
    intro c h
    rw [List.takeWhile_cons] at h
    split at h
    · rcases List.mem_cons.mp h with h | h
      · subst h
        exact ⟨by assumption, List.mem_cons_self _ _⟩
      · exact ⟨(ih h).1, List.mem_cons_of_mem _ (ih h).2⟩
    · exact absurd h (by simp)

theorem splitWs_words :
    ∀ (n : Nat) (s : Str), s.length ≤ n → ∀ w ∈ splitWs s,
      w ≠ [] ∧ ∀ c ∈ w, isPySpace c = false ∧ c ∈ s := by
  intro n
  induction n with
  | zero =>
    intro s hs w hw
    have : s = [] := List.eq_nil_of_length_eq_zero (by omega)
    subst this
    exact absurd hw (by simp [splitWs, splitWsAux])
  | succ m ih =>
    intro s hs w hw
    cases s with
    | nil => exact absurd hw (by simp [splitWs, splitWsAux])
    | cons c rest =>
      rw [splitWs_cons] at hw
      simp only [List.length_cons] at hs
      by_cases hc : isPySpace c = true
      · rw [if_pos hc] at hw
        obtain ⟨hne, hfr⟩ := ih rest (by omega) w hw
        exact ⟨hne, fun d hd => ⟨(hfr d hd).1, List.mem_cons_of_mem _ (hfr d hd).2⟩⟩
      · rw [if_neg hc] at hw
        rcases List.mem_cons.mp hw with hw | hw
        · subst hw
          refine ⟨by simp, ?_⟩
          intro d hd
          rcases List.mem_cons.mp hd with hd | hd
          · subst hd
            exact ⟨by simpa using hc, List.mem_cons_self _ _⟩
          · have := mem_takeWhile hd
            exact ⟨by simpa using this.1, List.mem_cons_of_mem _ this.2⟩
        · have hlen := dropWhile_len_le (fun d => !isPySpace d) rest
          obtain ⟨hne, hall⟩ := ih _ (by omega) w hw
          exact ⟨hne, fun d hd => ⟨(hall d hd).1,
            List.mem_cons_of_mem _ (mem_of_mem_dropWhile (hall d hd).2)⟩⟩

/-! ### Round trip: splitting a joined list of good words -/

/-- The invariant for words of a normalized name: non-empty, all lowercase
ASCII letters. -/
def GoodWord (w : Str) : Prop := w ≠ [] ∧ ∀ c ∈ w, isAsciiLower c = true

theorem space_not_upper {c : Char} (h : isPySpace c = true) : isAsciiUpper c = false := by
  rcases isPySpace_cases h with rfl | rfl | rfl | rfl | rfl | rfl <;> decide

theorem space_not_lower {c : Char} (h : isPySpace c = true) : isAsciiLower c = false := by
  rcases isPySpace_cases h with rfl | rfl | rfl | rfl | rfl | rfl <;> decide

theorem collapseWs_nil : collapseWs [] = [] := rfl

theorem collapseWs_word {w : Str} (hw : ∀ c ∈ w, isPySpace c = false) :
    ∀ {s : Str}, collapseWs (w ++ s) = w ++ collapseWs s := by
  induction w with
  | nil => intro s; simp
  | cons c cs ih =>
    intro s
    rw [List.cons_append, collapseWs_cons,
      if_neg (by simp [hw c (List.mem_cons_self _ _)])]
    rw [ih (fun d hd => hw d (List.mem_cons_of_mem _ hd))]
    rfl

theorem joinWith_cons (sep : Str) (w w1 : Str) (L : List Str) :
    joinWith sep (w :: w1 :: L) = w ++ sep ++ joinWith sep (w1 :: L) := rfl

theorem collapseWs_join {L : List Str} (hL : ∀ w ∈ L, GoodWord w) :
    collapseWs (joinWith [' '] L) = joinWith [' '] L := by
  induction L with
  | nil => rfl
  | cons w ws ih =>
    have hw := hL w (List.mem_cons_self _ _)
    have hwns : ∀ c ∈ w, isPySpace c = false :=
      fun c hc => lower_not_space (hw.2 c hc)
    cases ws with
    | nil =>
      show collapseWs w = w
      have h2 := @collapseWs_word w hwns []
      rw [List.append_nil] at h2
      rw [h2, collapseWs_nil, List.append_nil]
    | cons w1 L1 =>
      have hw1 := hL w1 (List.mem_cons_of_mem _ (List.mem_cons_self _ _))
      have hih : collapseWs (joinWith [' '] (w1 :: L1)) = joinWith [' '] (w1 :: L1) :=
        ih (fun v hv => hL v (List.mem_cons_of_mem _ hv))
      obtain ⟨d, w1', rfl⟩ : ∃ d w1', w1 = d :: w1' := by
        cases w1 with
        | nil => exact absurd rfl hw1.1
        | cons d w1' => exact ⟨d, w1', rfl⟩
      have hd : isPySpace d = false := lower_not_space (hw1.2 d (List.mem_cons_self _ _))
      obtain ⟨Y, hY⟩ : ∃ Y, joinWith [' '] ((d :: w1') :: L1) = d :: Y := by
        cases L1 with
        | nil => exact ⟨w1', rfl⟩
        | cons w2 L2 =>
          refine ⟨w1' ++ [' '] ++ joinWith [' '] (w2 :: L2), ?_⟩
          rw [joinWith_cons]
          simp
      rw [joinWith_cons, List.append_assoc, collapseWs_word hwns]
      show w ++ collapseWs (' ' :: joinWith [' '] ((d :: w1') :: L1)) = _
      rw [collapseWs_cons, if_pos (by decide), hY, List.dropWhile_cons,
        if_neg (by simp [hd]), ← hY, hih]
      simp

theorem joinWith_cons_ne_nil {w : Str} (hw : w ≠ []) (L' : List Str) :
    joinWith [' '] (w :: L') ≠ [] := by
  cases L' with
  | nil => exact hw
  | cons w1 L1 =>
    rw [joinWith_cons]
    simp [hw]

theorem getLast?_mem : ∀ {w : Str} {x : Char}, w.getLast? = some x → x ∈ w := by
  intro w
  induction w with
  | nil => intro x h; exact absurd h (by simp)
  | cons c cs ih =>
    intro x h
    cases cs with
    | nil =>
      rw [List.getLast?_singleton] at h
      injection h with h
      simp [h]
    | cons c2 cs2 =>
      rw [List.getLast?_cons_cons] at h
      exact List.mem_cons_of_mem _ (ih h)

theorem getLast?_append_right :
    ∀ (l1 l2 : Str), l2 ≠ [] → (l1 ++ l2).getLast? = l2.getLast? := by
  intro l1
  induction l1 with
  | nil => intro l2 _; rfl
  | cons c cs ih =>
    intro l2 h2
    rw [List.cons_append]
    have hne : cs ++ l2 ≠ [] := by
      intro hcontra
      exact h2 (List.append_eq_nil.mp hcontra).2
    cases he : cs ++ l2 with
    | nil => exact absurd he hne
    | cons e es =>
      rw [List.getLast?_cons_cons, ← he, ih l2 h2]

theorem joinWith_head {d : Char} {w' : Str} {L : List Str} :
    ∃ Y, joinWith [' '] ((d :: w') :: L) = d :: Y := by
  cases L with
  | nil => exact ⟨w', rfl⟩
  | cons w2 L2 =>
    refine ⟨w' ++ [' '] ++ joinWith [' '] (w2 :: L2), ?_⟩
    rw [joinWith_cons]
    simp

theorem join_getLast_nonspace :
    ∀ {L : List Str}, (∀ w ∈ L, GoodWord w) → L ≠ [] →
      ∃ dd, (joinWith [' '] L).getLast? = some dd ∧ isPySpace dd = false := by
  intro L
  induction L with
  | nil => intro _ h; exact absurd rfl h
  | cons w L' ih =>
    intro hL _
    have hw := hL w (List.mem_cons_self _ _)
    cases L' with
    | nil =>
      obtain ⟨x, hx⟩ : ∃ x, w.getLast? = some x := by
        cases hw2 : w.getLast? with
        | none => exact absurd (List.getLast?_eq_none_iff.mp hw2) hw.1
        | some x => exact ⟨x, rfl⟩
      exact ⟨x, hx, lower_not_space (hw.2 x (getLast?_mem hx))⟩
    | cons w1 L1 =>
      have hw1 := hL w1 (List.mem_cons_of_mem _ (List.mem_cons_self _ _))
      obtain ⟨dd, hdd, hns⟩ := ih (fun v hv => hL v (List.mem_cons_of_mem _ hv)) (by simp)
      refine ⟨dd, ?_, hns⟩
      rw [joinWith_cons, List.append_assoc,
        getLast?_append_right _ _ (by simp),
        getLast?_append_right _ _ (joinWith_cons_ne_nil hw1.1 L1)]
      exact hdd

theorem pyStrip_join {L : List Str} (hL : ∀ w ∈ L, GoodWord w) :
    pyStrip (joinWith [' '] L) = joinWith [' '] L := by
  cases L with
  | nil => rfl
  | cons w L' =>
    have hw := hL w (List.mem_cons_self _ _)
    obtain ⟨d, w', rfl⟩ : ∃ d w', w = d :: w' := by
      cases w with
      | nil => exact absurd rfl hw.1
      | cons d w' => exact ⟨d, w', rfl⟩
    have hd : isPySpace d = false := lower_not_space (hw.2 d (List.mem_cons_self _ _))
    obtain ⟨Y, hY⟩ := @joinWith_head d w' L'
    obtain ⟨dd, hdd, hddns⟩ := join_getLast_nonspace hL (by simp)
    unfold pyStrip
    rw [hY, List.dropWhile_cons, if_neg (by simp [hd]), ← hY]
    cases hrev : (joinWith [' '] ((d :: w') :: L')).reverse with
    | nil =>
      exact absurd (by simpa using congrArg List.reverse hrev)
        (joinWith_cons_ne_nil hw.1 L')
    | cons e es =>
      have he : (joinWith [' '] ((d :: w') :: L')).reverse.head? = some e := by
        rw [hrev]
        rfl
      rw [List.head?_reverse] at he
      rw [hdd] at he
      injection he with he
      rw [List.dropWhile_cons, if_neg (by rw [he] at hddns; simp [hddns]), ← hrev,
        List.reverse_reverse]

theorem pyLower_fix {s : Str} (h : ∀ c ∈ s, isAsciiUpper c = false) :
    pyLower s = s := by
  induction s with
  | nil => rfl
  | cons c cs ih =>
    show toLowerChar c :: pyLower cs = c :: cs
    rw [toLowerChar_fix (h c (List.mem_cons_self _ _)),
      ih (fun d hd => h d (List.mem_cons_of_mem _ hd))]

theorem splitWs_join {L : List Str} (hL : ∀ w ∈ L, GoodWord w) :
    splitWs (joinWith [' '] L) = L := by
  induction L with
  | nil => rfl
  | cons w L' ih =>
    have hw := hL w (List.mem_cons_self _ _)
    obtain ⟨d, w', rfl⟩ : ∃ d w', w = d :: w' := by
      cases w with
      | nil => exact absurd rfl hw.1
      | cons d w' => exact ⟨d, w', rfl⟩
    have hd : isPySpace d = false := lower_not_space (hw.2 d (List.mem_cons_self _ _))
    have hw'ns : ∀ c ∈ w', (fun x => !isPySpace x) c = true := by
      intro c hc
      simp [lower_not_space (hw.2 c (List.mem_cons_of_mem _ hc))]
    cases L' with
    | nil =>
      show splitWs (d :: w') = [d :: w']
      rw [splitWs_cons, if_neg (by simp [hd])]
      have ht : w'.takeWhile (fun x => !isPySpace x) = w' := by
        have h2 := @takeWhile_append_all _ w' [] hw'ns
        simpa using h2
      have hdr : w'.dropWhile (fun x => !isPySpace x) = [] := by
        have h2 := @dropWhile_append_all _ w' [] hw'ns
        simpa using h2
      rw [ht, hdr]
      rfl
    | cons w1 L1 =>
      rw [joinWith_cons, List.append_assoc, List.cons_append, List.singleton_append]
      rw [splitWs_cons, if_neg (by simp [hd])]
      rw [takeWhile_append_all hw'ns, dropWhile_append_all hw'ns]
      rw [List.takeWhile_cons, if_neg (by decide), List.dropWhile_cons, if_neg (by decide)]
      rw [splitWs_cons, if_pos (by decide)]
      rw [ih (fun v hv => hL v (List.mem_cons_of_mem _ hv))]
      simp

/-- Every part produced by `nameParts` is a non-empty all-lowercase word of
length greater than one. -/
theorem nameParts_good (n : Str) : ∀ w ∈ nameParts n, GoodWord w ∧ 1 < w.length := by
  intro w hw
  unfold nameParts at hw
  rw [List.mem_filter] at hw
  obtain ⟨hmem, hlen⟩ := hw
  refine ⟨⟨(splitWs_words _ _ (le_refl _) w hmem).1, ?_⟩, of_decide_eq_true hlen⟩
  intro c hc
  obtain ⟨hns, hcs⟩ := (splitWs_words _ _ (le_refl _) w hmem).2 c hc
  unfold pyLower at hcs
  obtain ⟨d, hd, rfl⟩ := List.mem_map.mp hcs
  have hd2 := mem_pyStrip hd
  rcases mem_collapseWsAux _ _ _ hd2 with heq | hd3
  · rw [heq] at hns
    exact absurd hns (by decide)
  · have hp := (List.mem_filter.mp hd3).2
    have hp2 : isAsciiAlpha d = true ∨ isPySpace d = true := by
      simpa [Bool.or_eq_true] using hp
    rcases hp2 with ha | hsp
    · exact toLowerChar_lower ha
    · rw [toLowerChar_fix (space_not_upper hsp)] at hns
      rw [hsp] at hns
      exact absurd hns (by decide)

/-- `nameParts` applied to a space-join of good long words returns the word
list unchanged: the whole normalization pipeline fixes such strings. -/
theorem nameParts_join {L : List Str} (hL : ∀ w ∈ L, GoodWord w ∧ 1 < w.length) :
    nameParts (joinWith [' '] L) = L := by
  have hG : ∀ w ∈ L, GoodWord w := fun w hw => (hL w hw).1
  unfold nameParts
  have hf : (joinWith [' '] L).filter (fun c => isAsciiAlpha c || isPySpace c) =
      joinWith [' '] L := by
    rw [List.filter_eq_self]
    intro c hc
    rcases mem_joinWith hc with heq | ⟨w, hw, hcw⟩
    · rw [List.mem_singleton.mp heq]; decide
    · simp [lower_alpha ((hG w hw).2 c hcw)]
  rw [hf, collapseWs_join hG, pyStrip_join hG]
  have hlow : pyLower (joinWith [' '] L) = joinWith [' '] L := by
    apply pyLower_fix
    intro c hc
    rcases mem_joinWith hc with heq | ⟨w, hw, hcw⟩
    · rw [List.mem_singleton.mp heq]; decide
    · exact lower_not_upper ((hG w hw).2 c hcw)
  rw [hlow, splitWs_join hG]
  rw [List.filter_eq_self]
  intro w hw
  exact decide_eq_true (hL w hw).2

theorem insertSorted_ne_nil (w : Str) (l : List Str) : insertSorted w l ≠ [] := by
  cases l with
  | nil => simp [insertSorted]
  | cons x xs =>
    unfold insertSorted
    split <;> simp

/-- C9: `NameMatcher.normalize_name` is idempotent: normalizing an
already-normalized name returns it unchanged. -/
theorem C9_normalize_name_idempotent (n : Str) :
    normalize_name (normalize_name n) = normalize_name n := by
  by_cases he : n.isEmpty = true
  · have h1 : normalize_name n = [] := by
      unfold normalize_name
      rw [if_pos he]
    rw [h1]
    decide
  · cases hnp : nameParts n with
    | nil =>
      have h1 : normalize_name n = [] := by
        unfold normalize_name
        rw [if_neg he, hnp]
        rfl
      rw [h1]
      decide
    | cons w ws =>
      have hgoods : ∀ v ∈ sortStrs (nameParts n), GoodWord v ∧ 1 < v.length :=
        fun v hv => nameParts_good n v (mem_sortStrs hv)
      have hXne : joinWith [' '] (sortStrs (nameParts n)) ≠ [] := by
        rw [hnp]
        show joinWith [' '] (insertSorted w (sortStrs ws)) ≠ []
        cases hins : insertSorted w (sortStrs ws) with
        | nil => exact absurd hins (insertSorted_ne_nil w _)
        | cons u us =>
          apply joinWith_cons_ne_nil _ us
          have hu : u ∈ sortStrs (nameParts n) := by
            rw [hnp]
            show u ∈ insertSorted w (sortStrs ws)
            rw [hins]
            exact List.mem_cons_self _ _
          exact (hgoods u hu).1.1
      have hX : normalize_name n = joinWith [' '] (sortStrs (nameParts n)) := by
        unfold normalize_name
        rw [if_neg he]
      rw [hX]
      unfold normalize_name
      rw [if_neg (fun hcon => hXne (List.isEmpty_iff.mp hcon))]
      rw [nameParts_join hgoods, sortStrs_of_sorted (sortStrs_sorted _)]

/-- C10 counterexample: `"Q"` and `""` differ only in the single-letter token
`"Q"` and normalize to the same (empty) string, yet `match_names` returns
similarity `0` and no match, because `calculate_similarity` short-circuits to
`0` whenever either raw input string is empty — before normalization is ever
consulted. -/
theorem C10_empty_name_counterexample :
    normalize_name "Q".data = normalize_name "".data ∧
    (match_names "Q".data "".data).is_match = false ∧
    (match_names "Q".data "".data).confidence = 0 := by
  decide

/-- C10 (amended): for non-empty raw names, discarding single-letter tokens
works as claimed: whenever the sorted multisets of retained parts coincide,
the normalized forms are equal and `match_names` returns similarity `1` with
`is_match = true`. -/
theorem C10_single_letter_tokens_amended (a b : Str) (ha : a ≠ []) (hb : b ≠ [])
    (h : sortStrs (nameParts a) = sortStrs (nameParts b)) :
    normalize_name a = normalize_name b ∧
    (match_names a b).confidence = 1 ∧ (match_names a b).is_match = true := by
  have hae : a.isEmpty = false := by
    cases a with
    | nil => exact absurd rfl ha
    | cons c cs => rfl
  have hbe : b.isEmpty = false := by
    cases b with
    | nil => exact absurd rfl hb
    | cons c cs => rfl
  have hnorm : normalize_name a = normalize_name b := by
    unfold normalize_name
    rw [if_neg (by simp [hae]), if_neg (by simp [hbe]), h]
  have hsim : calculate_similarity a b = 1 := by
    unfold calculate_similarity
    rw [if_neg (by simp [hae, hbe])]
    dsimp only
    rw [if_pos hnorm]
  refine ⟨hnorm, hsim, ?_⟩
  show decide (mkRat 7 10 ≤ calculate_similarity a b) = true
  rw [hsim]
  decide

theorem C10_single_letter_tokens_amended_witness :
    normalize_name "John Q Doe".data = normalize_name "John Doe".data ∧
    (match_names "John Q Doe".data "John Doe".data).confidence = 1 ∧
    (match_names "John Q Doe".data "John Doe".data).is_match = true :=
  C10_single_letter_tokens_amended _ _ (by decide) (by decide) (by decide)

/-- If both raw names are non-empty, the normalized forms differ, and one
side's parts are a subset of the other's (in either order), the similarity is
the subset-branch value `max 0.8 ratio`. -/
theorem calculate_similarity_subset {n1 n2 : Str} (h1 : n1.isEmpty = false)
    (h2 : n2.isEmpty = false) (hne : normalize_name n1 ≠ normalize_name n2)
    (hsub : (subsetStrs (splitWs (normalize_name n1)) (splitWs (normalize_name n2)) ||
        subsetStrs (splitWs (normalize_name n2)) (splitWs (normalize_name n1))) = true) :
    calculate_similarity n1 n2 =
      max (mkRat 4 5) (seqRatioQ (normalize_name n1) (normalize_name n2)) := by
  unfold calculate_similarity
  rw [if_neg (by simp [h1, h2])]
  dsimp only
  rw [if_neg hne, if_pos hsub]

/-- C7 counterexample: `is_match` is not symmetric.  `difflib`'s ratio is
itself asymmetric: for `"abb dbbe"` vs `"ab bcebe"` it is `5/8 < 0.7` one way
and `3/4 ≥ 0.7` the other, the token sets are not subsets of one another and
share no common part, so the two directions land on opposite sides of the
threshold. -/
theorem C7_asymmetry_counterexample :
    (match_names "abb dbbe".data "ab bcebe".data).is_match = false ∧
    (match_names "ab bcebe".data "abb dbbe".data).is_match = true := by
  decide

/-- C7 (amended): `is_match` is symmetric on the pairs where the similarity
does not fall through to the bare sequence ratio: whenever one normalized
part set is a subset of the other (in either direction) — which also covers
empty inputs and equal normalized forms — both directions decide `is_match`
the same way. -/
theorem C7_is_match_symmetric_amended (a b : Str)
    (h : subsetStrs (splitWs (normalize_name a)) (splitWs (normalize_name b)) = true ∨
        subsetStrs (splitWs (normalize_name b)) (splitWs (normalize_name a)) = true) :
    (match_names a b).is_match = (match_names b a).is_match := by
  show decide (mkRat 7 10 ≤ calculate_similarity a b) =
    decide (mkRat 7 10 ≤ calculate_similarity b a)
  by_cases hae : a.isEmpty = true
  · have hab : calculate_similarity a b = 0 := by
      unfold calculate_similarity
      rw [if_pos (by simp [hae])]
    have hba : calculate_similarity b a = 0 := by
      unfold calculate_similarity
      rw [if_pos (by simp [hae])]
    rw [hab, hba]
  · by_cases hbe : b.isEmpty = true
    · have hab : calculate_similarity a b = 0 := by
        unfold calculate_similarity
        rw [if_pos (by simp [hbe])]
      have hba : calculate_similarity b a = 0 := by
        unfold calculate_similarity
        rw [if_pos (by simp [hbe])]
      rw [hab, hba]
    · have hae' : a.isEmpty = false := by
        revert hae
        cases a.isEmpty <;> simp
      have hbe' : b.isEmpty = false := by
        revert hbe
        cases b.isEmpty <;> simp
      by_cases heq : normalize_name a = normalize_name b
      · have hab : calculate_similarity a b = 1 := by
          unfold calculate_similarity
          rw [if_neg (by simp [hae', hbe'])]
          dsimp only
          rw [if_pos heq]
        have hba : calculate_similarity b a = 1 := by
          unfold calculate_similarity
          rw [if_neg (by simp [hae', hbe'])]
          dsimp only
          rw [if_pos heq.symm]
        rw [hab, hba]
      · have hsub1 : (subsetStrs (splitWs (normalize_name a)) (splitWs (normalize_name b)) ||
            subsetStrs (splitWs (normalize_name b)) (splitWs (normalize_name a))) = true := by
          rcases h with h | h <;> simp [h]
        have hsub2 : (subsetStrs (splitWs (normalize_name b)) (splitWs (normalize_name a)) ||
            subsetStrs (splitWs (normalize_name a)) (splitWs (normalize_name b))) = true := by
          rcases h with h | h <;> simp [h]
        rw [calculate_similarity_subset hae' hbe' heq hsub1,
          calculate_similarity_subset hbe' hae' (fun hx => heq hx.symm) hsub2]
        have h1 : mkRat 7 10 ≤
            max (mkRat 4 5) (seqRatioQ (normalize_name a) (normalize_name b)) :=
          le_trans (by decide) (le_max_left _ _)
        have h2 : mkRat 7 10 ≤
            max (mkRat 4 5) (seqRatioQ (normalize_name b) (normalize_name a)) :=
          le_trans (by decide) (le_max_left _ _)
        rw [decide_eq_true h1, decide_eq_true h2]

theorem C7_is_match_symmetric_amended_witness :
    (match_names "john doe".data "doe john smith".data).is_match =
      (match_names "doe john smith".data "john doe".data).is_match :=
  C7_is_match_symmetric_amended _ _ (Or.inl (by decide))


end IAMS
